import Mathlib

/-!
Shallow embedding of the segmented Raft changelog implemented in
`src/Coordination/Changelog.cpp`.  Log entries are opaque triples, on-disk
records are modelled at byte level (lists of naturals holding byte values),
segment files live in a small association-list file system keyed by an
abstract path (directory, filename stem before the first underscore, FROM,
TO — the data `formatChangelogPath` encodes into the file name).  The
128-bit blob checksum function (CityHash128, an external library) is a
parameter of every operation.  `size_t` counters that the source increments
and decrements are tracked modulo 2^64 where wrap-around is reachable
(the writer's `entries_written`); index arithmetic such as
`to_log_idx - from_log_idx + 1` is kept on `Nat`, faithful whenever
`from_log_idx <= to_log_idx`, which every theorem below assumes or
establishes.  C++ exceptions become `Except` results carrying the state at
the moment of the throw; dereferencing an `end()` iterator or a null
`current_writer` (undefined behaviour in the source) is modelled by the
dedicated error value `ChErr.ub`.
-/

namespace ChangelogProof

def M64 : Nat := 2 ^ 64

/-- `writeIntBinary`: fixed-width little-endian encoding of `x` on `w` bytes. -/
def toLE (w x : Nat) : List Nat := (List.range w).map (fun i => x / 256 ^ i % 256)

/-- Little-endian decoding of a byte list (each byte taken mod 256). -/
def fromLE (bs : List Nat) : Nat := bs.foldr (fun b acc => b % 256 + 256 * acc) 0

/-- `ChangelogRecordHeader`: version (1 byte), index (8), term (8),
value_type (4), blob_size (8), blob_checksum (16). -/
structure RecHeader where
  version : Nat
  index : Nat
  term : Nat
  value_type : Nat
  blob_size : Nat
  blob_checksum : Nat
deriving DecidableEq, Repr

/-- `nuraft::log_entry`: a term, a value-type tag and an optional blob
(`none` models a null buffer pointer). -/
structure LogEntry where
  term : Nat
  val_type : Nat
  buf : Option (List Nat)
deriving DecidableEq, Repr

/-- `makeClone`: rebuilds an entry from its term, a copy of its buffer and
its value type (value copy; contents identical). -/
def makeClone (e : LogEntry) : LogEntry :=
  { term := e.term, val_type := e.val_type, buf := e.buf }

/-- The blob checksum function (`CityHash_v1_0_2::CityHash128`), an external
collaborator, kept abstract as a parameter. -/
abbrev Hash := List Nat → Nat

structure ChangelogRecord where
  header : RecHeader
  blob : Option (List Nat)
deriving DecidableEq, Repr

/-- `Changelog::buildRecord`: header fields from the entry; `blob_size` and
`blob_checksum` are zero when the buffer is null. -/
def buildRecord (hash : Hash) (index : Nat) (e : LogEntry) : ChangelogRecord :=
  match e.buf with
  | some b =>
    { header := { version := 0, index := index, term := e.term, value_type := e.val_type,
                  blob_size := b.length, blob_checksum := hash b },
      blob := some b }
  | none =>
    { header := { version := 0, index := index, term := e.term, value_type := e.val_type,
                  blob_size := 0, blob_checksum := 0 },
      blob := none }

/-- `ChangelogWriter::appendRecord`'s serialization: the six header fields in
little-endian followed by the blob bytes (nothing when `blob_size = 0`). -/
def serializeRecord (r : ChangelogRecord) : List Nat :=
  toLE 1 r.header.version ++ toLE 8 r.header.index ++ toLE 8 r.header.term ++
  toLE 4 r.header.value_type ++ toLE 8 r.header.blob_size ++ toLE 16 r.header.blob_checksum ++
  (match r.blob with | some b => b | none => [])

/-- One attempt of `ChangelogReader::readChangelog`'s header-plus-blob read at
byte offset `pos`; `none` when the file ends inside the record (the reads in
the source throw on EOF, caught by the surrounding `try`). -/
def decodeAt (file : List Nat) (pos : Nat) : Option (RecHeader × List Nat × Nat) :=
  if pos + 45 ≤ file.length then
    let f := file.drop pos
    let hdr : RecHeader :=
      { version := fromLE (f.take 1),
        index := fromLE ((f.drop 1).take 8),
        term := fromLE ((f.drop 9).take 8),
        value_type := fromLE ((f.drop 17).take 4),
        blob_size := fromLE ((f.drop 21).take 8),
        blob_checksum := fromLE ((f.drop 29).take 16) }
    if pos + 45 + hdr.blob_size ≤ file.length then
      some (hdr, (f.drop 45).take hdr.blob_size, pos + 45 + hdr.blob_size)
    else none
  else none

structure ChangelogReadResult where
  entries_read : Nat
  last_position : Nat
  error : Bool
deriving DecidableEq, Repr

/-- `std::map` contents, kept as association lists sorted by key. -/
abbrev EntryMap := List (Nat × LogEntry)
abbrev OffsetMap := List (Nat × Nat)

def lookupA {α : Type} : List (Nat × α) → Nat → Option α
  | [], _ => none
  | (k, v) :: t, i => if k = i then some v else lookupA t i

/-- Sorted insert-or-assign (`operator[]` / successful `try_emplace`). -/
def insertA {α : Type} : List (Nat × α) → Nat → α → List (Nat × α)
  | [], k, v => [(k, v)]
  | (k0, v0) :: t, k, v =>
    if k < k0 then (k, v) :: (k0, v0) :: t
    else if k = k0 then (k, v) :: t
    else (k0, v0) :: insertA t k v

/-- `erase` by key. -/
def eraseA {α : Type} : List (Nat × α) → Nat → List (Nat × α)
  | [], _ => []
  | (k0, v) :: t, k => if k0 = k then eraseA t k else (k0, v) :: eraseA t k

/-- The body of `ChangelogReader::readChangelog`.  `fuel` only bounds the
number of loop iterations; each iteration consumes at least 45 bytes, so the
wrapper's `file.length` budget is never exhausted.  `last_position` is
assigned at the top of every iteration (the `pos` argument of the recursive
call), each failure path reports the current `pos`, and the record counter
is incremented before the `index < start_log_idx` skip. -/
def readLoop (hash : Hash) (file : List Nat) (start_log_idx : Nat) :
    Nat → Nat → Nat → Nat → Nat → EntryMap → OffsetMap →
    ChangelogReadResult × EntryMap × OffsetMap
  | 0, _, _, acc, lastpos, logs, offs => (⟨acc, lastpos, false⟩, logs, offs)
  | fuel + 1, pos, prev, acc, lastpos, logs, offs =>
    if pos < file.length then
      match decodeAt file pos with
      | none => (⟨acc, pos, true⟩, logs, offs)
      | some (hdr, blob, next) =>
        if prev ≠ 0 ∧ (prev + 1) % M64 ≠ hdr.index then (⟨acc, pos, true⟩, logs, offs)
        else if hash blob ≠ hdr.blob_checksum then (⟨acc, pos, true⟩, logs, offs)
        else if (lookupA logs hdr.index).isSome then (⟨acc, pos, true⟩, logs, offs)
        else if hdr.index < start_log_idx then
          readLoop hash file start_log_idx fuel next hdr.index (acc + 1) pos logs offs
        else
          readLoop hash file start_log_idx fuel next hdr.index (acc + 1) pos
            (insertA logs hdr.index ⟨hdr.term, hdr.value_type, some blob⟩)
            (insertA offs hdr.index pos)
    else (⟨acc, lastpos, false⟩, logs, offs)

/-- `ChangelogReader::readChangelog` on a whole file. -/
def readChangelog (hash : Hash) (file : List Nat) (start_log_idx : Nat)
    (logs : EntryMap) (offs : OffsetMap) : ChangelogReadResult × EntryMap × OffsetMap :=
  readLoop hash file start_log_idx file.length 0 0 0 0 logs offs

/-- Outcome of the specification-side record chain: the start offsets of the
records that fully decode and validate in sequence, the position where the
scan stopped (the start of the first failing record when `failed`), and
whether a record failed. -/
structure ChainOut where
  starts : List Nat
  stop : Nat
  failed : Bool
deriving DecidableEq, Repr

/-- Specification-side reading of a segment file, following the spec's words
for the Segment Reader guarantee: walk the file record by record, collecting
the start offset of every fully-decoded, validated record, and stop either at
the end of the file or at the first record that fails to decode or validate
(torn tail, non-contiguous index, checksum mismatch, duplicate index).
`seen` holds the indices already materialized. -/
def specChainLoop (hash : Hash) (file : List Nat) (start_log_idx : Nat) :
    Nat → Nat → Nat → List Nat → ChainOut
  | 0, pos, _, _ => ⟨[], pos, false⟩
  | fuel + 1, pos, prev, seen =>
    if pos < file.length then
      match decodeAt file pos with
      | none => ⟨[], pos, true⟩
      | some (hdr, blob, next) =>
        if prev ≠ 0 ∧ (prev + 1) % M64 ≠ hdr.index then ⟨[], pos, true⟩
        else if hash blob ≠ hdr.blob_checksum then ⟨[], pos, true⟩
        else if hdr.index ∈ seen then ⟨[], pos, true⟩
        else
          let rest := specChainLoop hash file start_log_idx fuel next hdr.index
            (if hdr.index < start_log_idx then seen else hdr.index :: seen)
          ⟨pos :: rest.starts, rest.stop, rest.failed⟩
    else ⟨[], pos, false⟩

def readerSpecChain (hash : Hash) (file : List Nat) (start_log_idx : Nat)
    (seen : List Nat) : ChainOut :=
  specChainLoop hash file start_log_idx file.length 0 0 seen

/-- An on-disk path, as the data `formatChangelogPath` encodes in a filename:
directory, name stem before the first underscore, FROM and TO. -/
structure SegPath where
  dir : String
  base : String
  from_idx : Nat
  to_idx : Nat
deriving DecidableEq, Repr

/-- `ChangelogFileDescription`. -/
structure SegDesc where
  base : String
  from_log_idx : Nat
  to_log_idx : Nat
  path : SegPath
deriving DecidableEq, Repr

def formatChangelogPath (dir : String) (d : SegDesc) : SegPath :=
  ⟨dir, d.base, d.from_log_idx, d.to_log_idx⟩

/-- The segment directory: an association of paths to file contents. -/
abbrev FS := List (SegPath × List Nat)

def fsGet : FS → SegPath → Option (List Nat)
  | [], _ => none
  | (q, c) :: t, p => if q = p then some c else fsGet t p

def fsWrite : FS → SegPath → List Nat → FS
  | [], p, c => [(p, c)]
  | (q, v) :: t, p, c => if q = p then (p, c) :: t else (q, v) :: fsWrite t p c

def fsErase : FS → SegPath → FS
  | [], _ => []
  | (q, c) :: t, p => if q = p then fsErase t p else (q, c) :: fsErase t p

/-- `ChangelogWriter`: open file path, records written into the current
segment (a `size_t`, tracked mod 2^64) and the segment's start index. -/
structure Writer where
  filepath : SegPath
  entries_written : Nat
  start_index : Nat
deriving DecidableEq, Repr

structure ChState where
  changelogs_dir : String
  rotate_interval : Nat
  existing_changelogs : List (Nat × SegDesc)
  logs : EntryMap
  index_to_start_pos : OffsetMap
  start_index : Nat
  current_writer : Option Writer
  fs : FS
deriving DecidableEq, Repr

inductive ChErr where
  | logicalError
  | ub
deriving DecidableEq, Repr

/-- Operations return either the new state or the error thrown together with
the state at the moment of the throw. -/
abbrev ChRes := Except (ChErr × ChState) ChState

def incWrap (x : Nat) : Nat := (x + 1) % M64
def decWrap (x : Nat) : Nat := (x + (M64 - 1)) % M64

/-- `Changelog::rotate`: new descriptor `[new_start, new_start + interval - 1]`,
inserted into the map; a fresh writer in Rewrite mode (file truncated to
empty). -/
def rotate (st : ChState) (new_start : Nat) : ChState :=
  let d : SegDesc :=
    { base := "changelog", from_log_idx := new_start,
      to_log_idx := new_start + st.rotate_interval - 1,
      path := ⟨st.changelogs_dir, "changelog", new_start,
               new_start + st.rotate_interval - 1⟩ }
  { st with existing_changelogs := insertA st.existing_changelogs new_start d,
            fs := fsWrite st.fs d.path [],
            current_writer := some ⟨d.path, 0, new_start⟩ }

/-- `Changelog::appendEntry`.  The record is written (file grows, counter
increments) before `try_emplace` checks for a duplicate offset, so a
duplicate index throws after the disk write but before either map changes. -/
def appendEntry (hash : Hash) (st0 : ChState) (index : Nat) (e : LogEntry)
    (_sync : Bool) : ChRes :=
  match st0.current_writer with
  | none => .error (.logicalError, st0)
  | some w =>
    let st1 := if st0.logs.isEmpty then { st0 with start_index := index } else st0
    let st2 := if w.entries_written = st1.rotate_interval then rotate st1 index else st1
    match st2.current_writer with
    | none => .error (.ub, st2)
    | some w2 =>
      let file := (fsGet st2.fs w2.filepath).getD []
      let offset := file.length
      let st3 := { st2 with
        fs := fsWrite st2.fs w2.filepath (file ++ serializeRecord (buildRecord hash index e)),
        current_writer := some { w2 with entries_written := incWrap w2.entries_written } }
      if (lookupA st3.index_to_start_pos index).isSome then .error (.logicalError, st3)
      else .ok { st3 with
        index_to_start_pos := insertA st3.index_to_start_pos index offset,
        logs := insertA st3.logs index (makeClone e) }

/-- The `upper_bound` deletion loops of `writeAt` and of recovery: every
segment with FROM strictly above `index` is erased from the map and its file
deleted. -/
def removeSegsAbove (st : ChState) (index : Nat) : ChState :=
  let removed := st.existing_changelogs.filter (fun p => decide (index < p.1))
  { st with existing_changelogs := st.existing_changelogs.filter (fun p => decide (p.1 ≤ index)),
            fs := removed.foldl (fun f p => fsErase f p.2.path) st.fs }

/-- The rollback block of `Changelog::writeAt` (the `need_rollback` branch):
`lower_bound(index)` picks the segment description (the found element when
its key equals `index`, its predecessor otherwise), reopens that file in
Append mode, and sets `entries_written` to the description's capacity.  The
writer's start index is taken from the `lower_bound` iterator's key, exactly
as the source passes `index_changelog->first` to the constructor. -/
def rollbackReopen (st : ChState) (index : Nat) : ChRes :=
  let before := st.existing_changelogs.takeWhile (fun p => decide (p.1 < index))
  let after := st.existing_changelogs.dropWhile (fun p => decide (p.1 < index))
  match after with
  | [] => .error (.ub, st)
  | (k, d0) :: _ =>
    let dOpt : Option SegDesc :=
      if k = index then some d0 else (before.getLast?).map (fun p => p.2)
    match dOpt with
    | none => .error (.ub, st)
    | some d =>
      .ok { st with
        fs := fsWrite st.fs d.path ((fsGet st.fs d.path).getD []),
        current_writer := some ⟨d.path, d.to_log_idx - d.from_log_idx + 1, k⟩ }

/-- `ChangelogWriter::truncateToLength`. -/
def truncateWriterFile (st : ChState) (p : SegPath) (len : Nat) : ChState :=
  { st with fs := fsWrite st.fs p (((fsGet st.fs p).getD []).take len) }

/-- `Changelog::writeAt`. -/
def writeAt (hash : Hash) (st0 : ChState) (index : Nat) (e : LogEntry)
    (sync : Bool) : ChRes :=
  if (lookupA st0.index_to_start_pos index).isNone then .error (.logicalError, st0)
  else
    match st0.current_writer with
    | none => .error (.ub, st0)
    | some w0 =>
      let need_rollback := index < w0.start_index
      match (if need_rollback then rollbackReopen st0 index else .ok st0 : ChRes) with
      | .error ep => .error ep
      | .ok st1 =>
        match st1.current_writer with
        | none => .error (.ub, st1)
        | some w1 =>
          let st2 := truncateWriterFile st1 w1.filepath
            ((lookupA st1.index_to_start_pos index).getD 0)
          let st3 := if need_rollback then removeSegsAbove st2 index else st2
          let dropped := (st3.logs.filter (fun p => decide (index ≤ p.1))).map (fun p => p.1)
          let st4 := { st3 with
            logs := st3.logs.filter (fun p => decide (p.1 < index)),
            index_to_start_pos := dropped.foldl (fun m k => eraseA m k) st3.index_to_start_pos,
            current_writer := some { w1 with
              entries_written := dropped.foldl (fun x _ => decWrap x) w1.entries_written } }
          appendEntry hash st4 index e sync

/-- The inner loop of `Changelog::compact`: erase offsets for the indices of
one dropped segment, stopping at the first index that is absent. -/
def eraseRangeGo : OffsetMap → Nat → Nat → OffsetMap
  | m, _, 0 => m
  | m, i, fl + 1 => if (lookupA m i).isSome then eraseRangeGo (eraseA m i) (i + 1) fl else m

/-- The outer loop of `Changelog::compact`: drop leading segments whose TO is
at most `up_to`, erasing their offset ranges and deleting their files; stop
at the first retained segment. -/
def compactSegsGo (up_to : Nat) :
    List (Nat × SegDesc) → OffsetMap → FS → List (Nat × SegDesc) × OffsetMap × FS
  | [], offs, f => ([], offs, f)
  | (k, d) :: rest, offs, f =>
    if d.to_log_idx ≤ up_to then
      compactSegsGo up_to rest
        (eraseRangeGo offs d.from_log_idx (d.to_log_idx + 1 - d.from_log_idx))
        (fsErase f d.path)
    else ((k, d) :: rest, offs, f)

/-- `Changelog::compact`. -/
def compact (st : ChState) (up_to : Nat) : ChState :=
  let r := compactSegsGo up_to st.existing_changelogs st.index_to_start_pos st.fs
  { st with existing_changelogs := r.1, index_to_start_pos := r.2.1, fs := r.2.2,
            logs := st.logs.filter (fun p => decide (up_to < p.1)),
            start_index := up_to + 1 }

/-- `Changelog::entryAt`: `nullptr` when the index is not live, otherwise a
clone of the stored entry. -/
def entryAt (st : ChState) (idx : Nat) : Option LogEntry :=
  match lookupA st.logs idx with
  | none => none
  | some e => some (makeClone e)

/-- `Changelog::getLogEntriesBetween`: a vector of length `e - s` whose
position `i` holds `entryAt (s + i)`. -/
def getLogEntriesBetween (st : ChState) (s e : Nat) : List (Option LogEntry) :=
  (List.range (e - s)).map (fun i => entryAt st (s + i))

/-- Accumulator of the replay loop in `readChangelogAndInitWriter`. -/
structure ScanAcc where
  logs : EntryMap
  offs : OffsetMap
  total_read : Nat
  entries_in_last : Nat
  incomplete_log_idx : Nat
  res : ChangelogReadResult
deriving Repr

/-- The replay loop of `Changelog::readChangelogAndInitWriter`:
`entries_in_last` is assigned the declared capacity of every visited segment
(even a skipped one), segments entirely before the window are skipped,
replayed segments accumulate into the shared maps, and the loop breaks at the
first replayed segment that yields fewer records than its capacity. -/
def recoverScan (hash : Hash) (f : FS) (from_log_idx : Nat) :
    List (Nat × SegDesc) → ScanAcc → ScanAcc
  | [], acc => acc
  | (k, d) :: rest, acc =>
    let eil := d.to_log_idx - d.from_log_idx + 1
    if from_log_idx ≤ d.to_log_idx then
      let r := readChangelog hash ((fsGet f d.path).getD []) from_log_idx acc.logs acc.offs
      let acc2 : ScanAcc :=
        { logs := r.2.1, offs := r.2.2, total_read := acc.total_read + r.1.entries_read,
          entries_in_last := eil, incomplete_log_idx := acc.incomplete_log_idx, res := r.1 }
      if r.1.entries_read < eil then { acc2 with incomplete_log_idx := k }
      else recoverScan hash f from_log_idx rest acc2
    else recoverScan hash f from_log_idx rest { acc with entries_in_last := eil }

/-- The accumulator the replay loop leaves behind on a given state: shared
maps after replay, total records read, the last visited capacity, the
incomplete-segment marker (0 = none) and the last read result. -/
def recoverAcc (hash : Hash) (st : ChState) (from_log_idx : Nat) : ScanAcc :=
  recoverScan hash st.fs from_log_idx st.existing_changelogs
    ⟨st.logs, st.index_to_start_pos, 0, 0, 0, ⟨0, 0, false⟩⟩

/-- `Changelog::readChangelogAndInitWriter` (the `recover` operation). -/
def readChangelogAndInitWriter (hash : Hash) (st : ChState) (from_log_idx : Nat) : ChState :=
  let start := if from_log_idx = 0 then 1 else from_log_idx
  let a := recoverAcc hash st from_log_idx
  let st1 := { st with logs := a.logs, index_to_start_pos := a.offs, start_index := start }
  let st2 := if a.incomplete_log_idx ≠ 0 then removeSegsAbove st1 a.incomplete_log_idx else st1
  if st2.existing_changelogs ≠ [] ∧ a.res.entries_read < a.entries_in_last then
    match st2.existing_changelogs.getLast? with
    | none => st2
    | some kd =>
      let d := kd.2
      let st3 := { st2 with
        fs := fsWrite st2.fs d.path ((fsGet st2.fs d.path).getD []),
        current_writer := some ⟨d.path, a.res.entries_read, d.from_log_idx⟩ }
      if a.res.error then truncateWriterFile st3 d.path a.res.last_position else st3
  else rotate st2 (start + a.total_read)

/-- A changelog object fresh out of the constructor, over an empty directory. -/
def initialChangelog (dir : String) (R : Nat) : ChState :=
  ⟨dir, R, [], [], [], 0, none, []⟩

/-- Construction over an empty directory followed by `recover(0)`. -/
def initState (hash : Hash) (dir : String) (R : Nat) : ChState :=
  readChangelogAndInitWriter hash (initialChangelog dir R) 0

/-- `append(1, e 1); append(2, e 2); …; append(n, e n)`. -/
def appendSeq (hash : Hash) (e : Nat → LogEntry) (sync : Bool) : Nat → ChState → ChRes
  | 0, st => .ok st
  | n + 1, st =>
    match appendSeq hash e sync n st with
    | .error ep => .error ep
    | .ok st' => appendEntry hash st' (n + 1) (e (n + 1)) sync

/-- Well-formed segment maps: each descriptor has `FROM ≤ TO` and the reserved
ranges are strictly increasing and disjoint along the list. -/
def descsChain : List (Nat × SegDesc) → Bool
  | [] => true
  | [(_, d)] => decide (d.from_log_idx ≤ d.to_log_idx)
  | (_, d) :: (k2, d2) :: t =>
    decide (d.from_log_idx ≤ d.to_log_idx) && decide (d.to_log_idx < d2.from_log_idx) &&
    descsChain ((k2, d2) :: t)

/-- Pairwise-distinct file paths among the segment descriptors. -/
def pathsDistinct : List (Nat × SegDesc) → Bool
  | [] => true
  | p :: t => t.all (fun q => decide (q.2.path ≠ p.2.path)) && pathsDistinct t

/-- The map key of every segment equals its descriptor's FROM (always true
for maps built by the constructor scan or by rotation). -/
def keysMatchFrom (l : List (Nat × SegDesc)) : Bool :=
  l.all (fun p => decide (p.1 = p.2.from_log_idx))

def keysOf {α : Type} (m : List (Nat × α)) : List Nat := m.map Prod.fst

/-- The path of the `k`-th segment created by appending from an empty
changelog with interval `R`: reserved range `[k*R + 1, k*R + R]`. -/
def segPathAt (dir : String) (R k : Nat) : SegPath := ⟨dir, "changelog", k * R + 1, k * R + R⟩

def segDescAt (dir : String) (R k : Nat) : SegDesc :=
  ⟨"changelog", k * R + 1, k * R + R, segPathAt dir R k⟩

/-- Segment map after appending into segments `0..q`. -/
def expectedSegs (dir : String) (R q : Nat) : List (Nat × SegDesc) :=
  (List.range (q + 1)).map (fun k => (k * R + 1, segDescAt dir R k))

/-- Entries map after `append(1..j)`. -/
def expectedLogs (es : Nat → LogEntry) (j : Nat) : EntryMap :=
  (List.range j).map (fun i => (i + 1, makeClone (es (i + 1))))

/-! Concrete fixtures used by counterexamples and witnesses. -/

def testHash : Hash := fun b => 1000 + b.length

def testEntry (i : Nat) : LogEntry := ⟨10 + i, 0, some []⟩

/-- Scenario S1 of the spec: `rotate_interval = 3`, `recover(0)` on an empty
directory, then `append(1..7)`. -/
def fixtureAppend7 : ChRes := appendSeq testHash testEntry true 7 (initState testHash "d" 3)

/-- `rotate_interval = 3`, `recover(0)` on an empty directory, `append(1..6)`. -/
def fixtureAppend6 : ChRes := appendSeq testHash testEntry true 6 (initState testHash "d" 3)

/-- After `append(1..6)` with `rotate_interval = 3`, call `compact(5)` —
`up_to = 5` falls strictly inside the retained segment `[4, 6]`. -/
def fixtureCompact5 : Option ChState := fixtureAppend6.toOption.map (fun st => compact st 5)

/-- A state whose offsets map already holds index 4 (duplicate-append probe). -/
def dupState : ChState := ⟨"d", 3, [], [], [(4, 0)], 0, none, []⟩

/-- Two valid records (indices 1 and 2) followed by one junk byte — a torn
tail. -/
def tornFile : List Nat :=
  serializeRecord (buildRecord testHash 1 (testEntry 1)) ++
  serializeRecord (buildRecord testHash 2 (testEntry 2)) ++ [7]

def segA : SegDesc := ⟨"changelog", 1, 3, ⟨"d", "changelog", 1, 3⟩⟩

def segB : SegDesc := ⟨"changelog", 4, 6, ⟨"d", "changelog", 4, 6⟩⟩

/-- A directory holding segment `[1,3]` whose file ends in a torn tail after
two valid records, followed by segment `[4,6]` (recovery probe). -/
def recFixture : ChState :=
  ⟨"d", 3, [(1, segA), (4, segB)], [], [], 0, none,
   [(segA.path, tornFile), (segB.path, [9])]⟩

/-- A recovered state holding segments `[1,3]` and `[4,6]` with live indices
3 and 4 (compaction probe). -/
def compactFixture : ChState :=
  ⟨"d", 3, [(1, segA), (4, segB)], [(3, testEntry 3), (4, testEntry 4)],
   [(3, 0), (4, 0)], 1, none, [(segA.path, [1, 2]), (segB.path, [3])]⟩

/-! ## Auxiliary lemmas on the map and file-system representations -/

theorem lookupA_insertA {α : Type} (m : List (Nat × α)) (k : Nat) (v : α) (j : Nat) :
    lookupA (insertA m k v) j = if j = k then some v else lookupA m j := by
  induction m with
  | nil =>
    by_cases h : j = k
    · simp [insertA, lookupA, h]
    · simp [insertA, lookupA, h, Ne.symm h]
  | cons p t ih =>
    obtain ⟨k0, v0⟩ := p
    simp only [insertA]
    by_cases h1 : k < k0
    · by_cases h : j = k
      · simp [lookupA, h1, h]
      · simp [lookupA, h1, h, Ne.symm h]
    · by_cases h2 : k = k0
      · subst h2
        by_cases h : j = k
        · simp [lookupA, h1, h]
        · simp [lookupA, h1, h, Ne.symm h]
      · simp only [if_neg h1, if_neg h2, lookupA]
        by_cases h3 : k0 = j
        · subst h3
          simp [ih, Ne.symm h2]
        · simp [h3, ih]

theorem lookupA_eraseA {α : Type} (m : List (Nat × α)) (k j : Nat) :
    lookupA (eraseA m k) j = if j = k then none else lookupA m j := by
  induction m with
  | nil => simp [eraseA, lookupA]
  | cons p t ih =>
    obtain ⟨k0, v0⟩ := p
    by_cases h0 : k0 = k
    · subst h0
      by_cases h : j = k0
      · simpa [eraseA, lookupA, h] using ih
      · simpa [eraseA, lookupA, h, Ne.symm h] using ih
    · by_cases h : j = k0
      · subst h
        have hjk : ¬j = k := fun he => h0 (he ▸ rfl)
        simp [eraseA, lookupA, h0, hjk]
      · simp [eraseA, lookupA, h0, Ne.symm h, ih]

theorem lookupA_eq_none_of_not_mem {α : Type} (m : List (Nat × α)) (j : Nat)
    (h : j ∉ keysOf m) : lookupA m j = none := by
  induction m with
  | nil => rfl
  | cons p t ih =>
    simp only [keysOf, List.map_cons, List.mem_cons] at h
    push_neg at h
    simp only [lookupA, if_neg (Ne.symm h.1)]
    exact ih (by simpa [keysOf] using h.2)

theorem lookupA_isSome_iff_mem {α : Type} (m : List (Nat × α)) (j : Nat) :
    (lookupA m j).isSome = true ↔ j ∈ keysOf m := by
  induction m with
  | nil => simp [lookupA, keysOf]
  | cons p t ih =>
    obtain ⟨k0, v0⟩ := p
    by_cases h : k0 = j
    · subst h; simp [lookupA, keysOf]
    · simp [lookupA, keysOf, h, ih, Ne.symm h]

theorem insertA_of_forall_lt {α : Type} (m : List (Nat × α)) (k : Nat) (v : α)
    (h : ∀ p ∈ m, p.1 < k) : insertA m k v = m ++ [(k, v)] := by
  induction m with
  | nil => rfl
  | cons p t ih =>
    obtain ⟨k0, v0⟩ := p
    have hk0 : k0 < k := h (k0, v0) (by simp)
    simp only [insertA, if_neg (by omega : ¬k < k0), if_neg (by omega : ¬k = k0),
      List.cons_append, List.cons.injEq, true_and]
    exact ih (fun p hp => h p (by simp [hp]))

theorem lookupA_foldl_eraseA {α : Type} (l : List Nat) (m : List (Nat × α)) (j : Nat) :
    lookupA (l.foldl (fun acc k => eraseA acc k) m) j =
      if j ∈ l then none else lookupA m j := by
  induction l generalizing m with
  | nil => simp
  | cons k t ih =>
    by_cases h : j = k
    · subst h
      simp [ih, lookupA_eraseA]
    · simp [ih, lookupA_eraseA, h]

theorem fsGet_fsWrite (f : FS) (p : SegPath) (c : List Nat) (q : SegPath) :
    fsGet (fsWrite f p c) q = if q = p then some c else fsGet f q := by
  induction f with
  | nil =>
    by_cases h : q = p
    · simp [fsWrite, fsGet, h]
    · simp [fsWrite, fsGet, h, Ne.symm h]
  | cons e t ih =>
    obtain ⟨q0, c0⟩ := e
    by_cases h0 : q0 = p
    · subst h0
      by_cases h : q = q0
      · simp [fsWrite, fsGet, h]
      · simp [fsWrite, fsGet, h, Ne.symm h]
    · by_cases h : q = q0
      · subst h
        have hqp : ¬q = p := fun he => h0 (he ▸ rfl)
        simp [fsWrite, fsGet, h0, hqp]
      · simp [fsWrite, fsGet, h0, Ne.symm h, ih]

theorem fsGet_fsErase (f : FS) (p q : SegPath) :
    fsGet (fsErase f p) q = if q = p then none else fsGet f q := by
  induction f with
  | nil => simp [fsErase, fsGet]
  | cons e t ih =>
    obtain ⟨q0, c0⟩ := e
    by_cases h0 : q0 = p
    · subst h0
      by_cases h : q = q0
      · simpa [fsErase, fsGet, h] using ih
      · simpa [fsErase, fsGet, h, Ne.symm h] using ih
    · by_cases h : q = q0
      · subst h
        have hqp : ¬q = p := fun he => h0 (he ▸ rfl)
        simp [fsErase, fsGet, h0, hqp]
      · simp [fsErase, fsGet, h0, Ne.symm h, ih]

theorem fsGet_foldl_fsErase (l : List (Nat × SegDesc)) (f : FS) (q : SegPath) :
    fsGet (l.foldl (fun acc p => fsErase acc p.2.path) f) q =
      if q ∈ l.map (fun p => p.2.path) then none else fsGet f q := by
  induction l generalizing f with
  | nil => simp
  | cons p t ih =>
    by_cases h : q = p.2.path
    · subst h
      simp [ih, fsGet_fsErase]
    · by_cases hm : q ∈ t.map (fun p => p.2.path)
      · simp [ih, fsGet_fsErase, h, hm]
      · simp [ih, fsGet_fsErase, h, hm]

theorem descsChain_tail {p : Nat × SegDesc} {t : List (Nat × SegDesc)}
    (h : descsChain (p :: t) = true) : descsChain t = true := by
  obtain ⟨k, d⟩ := p
  cases t with
  | nil => rfl
  | cons q t2 =>
    obtain ⟨k2, d2⟩ := q
    simp only [descsChain, Bool.and_eq_true] at h
    exact h.2

theorem descsChain_to_lt {k : Nat} {d : SegDesc} {t : List (Nat × SegDesc)}
    (h : descsChain ((k, d) :: t) = true) :
    ∀ p ∈ t, d.to_log_idx < p.2.to_log_idx := by
  induction t generalizing k d with
  | nil => intro p hp; cases hp
  | cons q t2 ih =>
    obtain ⟨k2, d2⟩ := q
    simp only [descsChain, Bool.and_eq_true, decide_eq_true_eq] at h
    intro p hp
    rcases List.mem_cons.mp hp with hq | hq
    · subst hq
      dsimp only
      have h2 : d2.from_log_idx ≤ d2.to_log_idx := by
        cases t2 with
        | nil => simpa [descsChain] using h.2
        | cons r t3 =>
          obtain ⟨k3, d3⟩ := r
          simp only [descsChain, Bool.and_eq_true, decide_eq_true_eq] at h
          exact h.2.1.1
      omega
    · have := ih (k := k2) (d := d2) h.2 p hq
      have h2 : d.to_log_idx < d2.from_log_idx := h.1.2
      have h3 : d2.from_log_idx ≤ d2.to_log_idx := by
        cases t2 with
        | nil => simpa [descsChain] using h.2
        | cons r t3 =>
          obtain ⟨k3, d3⟩ := r
          simp only [descsChain, Bool.and_eq_true, decide_eq_true_eq] at h
          exact h.2.1.1
      omega

theorem pathsDistinct_tail {p : Nat × SegDesc} {t : List (Nat × SegDesc)}
    (h : pathsDistinct (p :: t) = true) : pathsDistinct t = true := by
  simp only [pathsDistinct, Bool.and_eq_true] at h
  exact h.2

theorem pathsDistinct_head_ne {p : Nat × SegDesc} {t : List (Nat × SegDesc)}
    (h : pathsDistinct (p :: t) = true) : ∀ q ∈ t, q.2.path ≠ p.2.path := by
  simp only [pathsDistinct, Bool.and_eq_true, List.all_eq_true, decide_eq_true_eq] at h
  exact h.1

theorem fsGet_compactSegsGo_not_mem (u : Nat) (segs : List (Nat × SegDesc))
    (offs : OffsetMap) (f : FS) (p : SegPath)
    (h : ∀ q ∈ segs, q.2.path ≠ p) :
    fsGet (compactSegsGo u segs offs f).2.2 p = fsGet f p := by
  induction segs generalizing offs f with
  | nil => rfl
  | cons q t ih =>
    obtain ⟨k, d⟩ := q
    by_cases hd : d.to_log_idx ≤ u
    · simp only [compactSegsGo, if_pos hd]
      rw [ih _ _ (fun r hr => h r (List.mem_cons_of_mem _ hr))]
      rw [fsGet_fsErase]
      exact if_neg (fun he => h (k, d) (List.mem_cons_self _ _) he.symm)
    · simp [compactSegsGo, hd]

theorem compactSegsGo_spec (u : Nat) (segs : List (Nat × SegDesc))
    (offs : OffsetMap) (f : FS)
    (hch : descsChain segs = true) (hp : pathsDistinct segs = true) :
    (compactSegsGo u segs offs f).1 =
        segs.filter (fun p => decide (u < p.2.to_log_idx)) ∧
      (∀ p ∈ segs, p.2.to_log_idx ≤ u →
        fsGet (compactSegsGo u segs offs f).2.2 p.2.path = none) ∧
      (∀ p ∈ segs, u < p.2.to_log_idx →
        fsGet (compactSegsGo u segs offs f).2.2 p.2.path = fsGet f p.2.path) := by
  induction segs generalizing offs f with
  | nil => exact ⟨rfl, fun p hp => absurd hp (List.not_mem_nil p), fun p hp => absurd hp (List.not_mem_nil p)⟩
  | cons q t ih =>
    obtain ⟨k, d⟩ := q
    by_cases hd : d.to_log_idx ≤ u
    · have ih' := ih (eraseRangeGo offs d.from_log_idx (d.to_log_idx + 1 - d.from_log_idx))
        (fsErase f d.path) (descsChain_tail hch) (pathsDistinct_tail hp)
      refine ⟨?_, ?_, ?_⟩
      · simp only [compactSegsGo, if_pos hd]
        rw [ih'.1, List.filter_cons]
        simp [Nat.not_lt.mpr hd]
      · intro p hpm hple
        rcases List.mem_cons.mp hpm with hq | hq
        · subst hq
          simp only [compactSegsGo, if_pos hd]
          rw [fsGet_compactSegsGo_not_mem u t _ _ _
            (fun r hr => fun he => (pathsDistinct_head_ne hp r hr) he)]
          rw [fsGet_fsErase, if_pos rfl]
        · simp only [compactSegsGo, if_pos hd]
          exact ih'.2.1 p hq hple
      · intro p hpm hplt
        rcases List.mem_cons.mp hpm with hq | hq
        · subst hq; dsimp only at *; omega
        · simp only [compactSegsGo, if_pos hd]
          rw [ih'.2.2 p hq hplt, fsGet_fsErase,
            if_neg (pathsDistinct_head_ne hp p hq)]
    · refine ⟨?_, ?_, ?_⟩
      · simp only [compactSegsGo, if_neg hd]
        rw [List.filter_cons]
        have hall : ∀ p ∈ t, decide (u < p.2.to_log_idx) = true := by
          intro p hq
          have := descsChain_to_lt hch p hq
          simp only [decide_eq_true_eq]
          omega
        rw [List.filter_eq_self.mpr hall]
        simp [Nat.lt_of_not_le hd]
      · intro p hpm hple
        rcases List.mem_cons.mp hpm with hq | hq
        · subst hq; dsimp only at *; omega
        · have := descsChain_to_lt hch p hq
          omega
      · intro p hpm hplt
        simp [compactSegsGo, hd]

theorem lookupA_append {α : Type} (l1 l2 : List (Nat × α)) (j : Nat) :
    lookupA (l1 ++ l2) j =
      match lookupA l1 j with
      | some v => some v
      | none => lookupA l2 j := by
  induction l1 with
  | nil => simp [lookupA]
  | cons p t ih =>
    obtain ⟨k, v⟩ := p
    by_cases h : k = j <;> simp [lookupA, h, ih]

theorem lookupA_rangeMap {α : Type} (g : Nat → α) (n k : Nat) (h1 : 1 ≤ k) (h2 : k ≤ n) :
    lookupA ((List.range n).map (fun i => (i + 1, g (i + 1)))) k = some (g k) := by
  induction n with
  | zero => omega
  | succ n ih =>
    rw [List.range_succ, List.map_append, lookupA_append]
    by_cases h : k ≤ n
    · rw [ih h]
    · have hk : k = n + 1 := by omega
      subst hk
      have hnone : lookupA ((List.range n).map (fun i => (i + 1, g (i + 1)))) (n + 1) = none := by
        apply lookupA_eq_none_of_not_mem
        simp only [keysOf, List.map_map, List.mem_map, List.mem_range, Function.comp]
        rintro ⟨i, hi, he⟩
        omega
      rw [hnone]
      simp [lookupA]

theorem appendEntry_ok_of_fresh (hash : Hash) (st : ChState) (idx : Nat) (e : LogEntry)
    (sync : Bool) (w : Writer) (hw : st.current_writer = some w)
    (hnone : lookupA st.index_to_start_pos idx = none) :
    ∃ off st2, appendEntry hash st idx e sync = .ok st2 ∧
      st2.logs = insertA st.logs idx (makeClone e) ∧
      st2.index_to_start_pos = insertA st.index_to_start_pos idx off ∧
      st2.current_writer.isSome = true := by
  by_cases h1 : st.logs.isEmpty
  · by_cases h2 : w.entries_written = st.rotate_interval
    · simp only [appendEntry, hw, h1, h2, rotate, hnone, if_true, ite_true, Option.isSome_none,
        Bool.false_eq_true, ite_false, Option.isSome_some]
      exact ⟨_, _, rfl, rfl, rfl, rfl⟩
    · simp only [appendEntry, hw, h1, h2, rotate, hnone, if_true, ite_true, Option.isSome_none,
        Bool.false_eq_true, ite_false, if_false, Option.isSome_some]
      exact ⟨_, _, rfl, rfl, rfl, rfl⟩
  · by_cases h2 : w.entries_written = st.rotate_interval
    · simp only [appendEntry, hw, h1, h2, rotate, hnone, Bool.not_eq_true, if_true, ite_true,
        Option.isSome_none, Bool.false_eq_true, ite_false, if_false, Option.isSome_some]
      exact ⟨_, _, rfl, rfl, rfl, rfl⟩
    · simp only [appendEntry, hw, h1, h2, rotate, hnone, Bool.not_eq_true, if_true, ite_true,
        Option.isSome_none, Bool.false_eq_true, ite_false, if_false, Option.isSome_some]
      exact ⟨_, _, rfl, rfl, rfl, rfl⟩

/-- After `recover(0)` over an empty directory and `append(1..n)`, the
entries map holds exactly `(i, clone (e i))` for `1 ≤ i ≤ n`, the offsets map
has exactly the keys `1..n`, and a writer is open.  Holds for every
`rotate_interval`. -/
theorem appendSeq_slim_spec (hash : Hash) (dir : String) (R : Nat) (es : Nat → LogEntry)
    (sync : Bool) (n : Nat) :
    ∃ st, appendSeq hash es sync n (initState hash dir R) = .ok st ∧
      st.logs = (List.range n).map (fun i => (i + 1, makeClone (es (i + 1)))) ∧
      keysOf st.index_to_start_pos = (List.range n).map (fun i => i + 1) ∧
      st.current_writer.isSome = true := by
  induction n with
  | zero => exact ⟨initState hash dir R, rfl, rfl, rfl, rfl⟩
  | succ n ih =>
    obtain ⟨st, hok, hlogs, hoffs, hw⟩ := ih
    rw [Option.isSome_iff_exists] at hw
    obtain ⟨w, hw⟩ := hw
    have hnone : lookupA st.index_to_start_pos (n + 1) = none := by
      apply lookupA_eq_none_of_not_mem
      unfold keysOf at hoffs
      rw [keysOf, hoffs]
      simp only [List.mem_map, List.mem_range]
      rintro ⟨i, hi, he⟩
      omega
    have hofflt : ∀ p ∈ st.index_to_start_pos, p.1 < n + 1 := by
      intro p hp
      have hm : p.1 ∈ List.map Prod.fst st.index_to_start_pos := List.mem_map_of_mem Prod.fst hp
      rw [show List.map Prod.fst st.index_to_start_pos = keysOf st.index_to_start_pos from rfl,
        hoffs] at hm
      simp only [List.mem_map, List.mem_range] at hm
      omega
    have hloglt : ∀ p ∈ st.logs, p.1 < n + 1 := by
      intro p hp
      rw [hlogs] at hp
      simp only [List.mem_map, List.mem_range] at hp
      obtain ⟨i, hi, he⟩ := hp
      have : p.1 = i + 1 := by rw [← he]
      omega
    obtain ⟨off, st2, hok2, hlogs2, hoffs2, hw2⟩ :=
      appendEntry_ok_of_fresh hash st (n + 1) (es (n + 1)) sync w hw hnone
    refine ⟨st2, ?_, ?_, ?_, hw2⟩
    · simp only [appendSeq, hok, hok2]
    · rw [hlogs2, insertA_of_forall_lt _ _ _ hloglt, hlogs, List.range_succ, List.map_append]
      rfl
    · rw [hoffs2, insertA_of_forall_lt _ _ _ hofflt]
      rw [keysOf, List.map_append, ← keysOf, hoffs]
      rw [List.range_succ, List.map_append]
      rfl


theorem decodeAt_bounds {file : List Nat} {pos : Nat} {hdr : RecHeader} {blob : List Nat}
    {next : Nat} (h : decodeAt file pos = some (hdr, blob, next)) :
    pos + 45 ≤ next ∧ next ≤ file.length := by
  unfold decodeAt at h
  dsimp only at h
  split_ifs at h with h1 h2
  rw [Option.some.injEq, Prod.mk.injEq, Prod.mk.injEq] at h
  obtain ⟨hh, hb, hn⟩ := h
  subst hh
  omega





theorem readLoop_spec (hash : Hash) (file : List Nat) (start : Nat) :
    ∀ (fuel pos prev acc lastpos : Nat) (logs : EntryMap) (offs : OffsetMap)
      (seen : List Nat),
      (∀ i, i ∈ seen ↔ (lookupA logs i).isSome = true) →
      file.length ≤ pos + 45 * fuel →
      (readLoop hash file start fuel pos prev acc lastpos logs offs).1 =
        ⟨acc + (specChainLoop hash file start fuel pos prev seen).starts.length,
         if (specChainLoop hash file start fuel pos prev seen).failed then
           (specChainLoop hash file start fuel pos prev seen).stop
         else (specChainLoop hash file start fuel pos prev seen).starts.getLastD lastpos,
         (specChainLoop hash file start fuel pos prev seen).failed⟩ := by
  intro fuel
  induction fuel with
  | zero =>
    intro pos prev acc lastpos logs offs seen hseen hfuel
    simp [readLoop, specChainLoop]
  | succ fuel ih =>
    intro pos prev acc lastpos logs offs seen hseen hfuel
    by_cases hpos : pos < file.length
    · cases hdec : decodeAt file pos with
      | none => simp [readLoop, specChainLoop, hpos, hdec]
      | some trip =>
        obtain ⟨hdr, blob, next⟩ := trip
        obtain ⟨hn1, hn2⟩ := decodeAt_bounds hdec
        by_cases hcont : prev ≠ 0 ∧ (prev + 1) % M64 ≠ hdr.index
        · simp [readLoop, specChainLoop, hpos, hdec, hcont]
        · by_cases hck : hash blob ≠ hdr.blob_checksum
          · simp [readLoop, specChainLoop, hpos, hdec, hcont, hck]
          · by_cases hdup : hdr.index ∈ seen
            · have hl : (lookupA logs hdr.index).isSome = true := (hseen _).mp hdup
              simp [readLoop, specChainLoop, hpos, hdec, hcont, hck, hdup, hl]
            · have hl : ¬(lookupA logs hdr.index).isSome = true :=
                fun hc => hdup ((hseen _).mpr hc)
              have hfuel' : file.length ≤ next + 45 * fuel := by omega
              by_cases hskip : hdr.index < start
              · have ihx := ih next hdr.index (acc + 1) pos logs offs seen hseen hfuel'
                simp only [readLoop, specChainLoop, if_pos hpos, hdec, if_neg hcont,
                  if_neg hck, hl, if_neg hdup, if_pos hskip, Bool.false_eq_true, if_false,
                  ite_false, ite_true]
                rw [ihx]
                rcases hc : (specChainLoop hash file start fuel next hdr.index seen).failed with _ | _
                · simp [hc, List.length_cons, Nat.add_assoc, Nat.add_comm 1]
                  rw [← List.getLastD_eq_getLast?, ← List.getLastD_eq_getLast?,
                    List.getLastD_cons]
                · simp [hc, Nat.add_assoc, Nat.add_comm 1]
              · have hseen' : ∀ i, i ∈ hdr.index :: seen ↔
                    (lookupA (insertA logs hdr.index ⟨hdr.term, hdr.value_type, some blob⟩) i).isSome
                      = true := by
                  intro i
                  rw [List.mem_cons, lookupA_insertA]
                  by_cases hi : i = hdr.index
                  · simp [hi]
                  · simp [hi, hseen i]
                have ihx := ih next hdr.index (acc + 1) pos
                  (insertA logs hdr.index ⟨hdr.term, hdr.value_type, some blob⟩)
                  (insertA offs hdr.index pos) (hdr.index :: seen) hseen' hfuel'
                simp only [readLoop, specChainLoop, if_pos hpos, hdec, if_neg hcont,
                  if_neg hck, hl, if_neg hdup, if_neg hskip, Bool.false_eq_true, if_false,
                  ite_false, ite_true]
                rw [ihx]
                rcases hc : (specChainLoop hash file start fuel next hdr.index
                    (hdr.index :: seen)).failed with _ | _
                · simp [hc, List.length_cons, Nat.add_assoc, Nat.add_comm 1]
                  rw [← List.getLastD_eq_getLast?, ← List.getLastD_eq_getLast?,
                    List.getLastD_cons]
                · simp [hc, Nat.add_assoc, Nat.add_comm 1]
    · simp [readLoop, specChainLoop, hpos]





theorem specChainLoop_stop (hash : Hash) (file : List Nat) (start : Nat) :
    ∀ (fuel pos prev : Nat) (seen : List Nat), pos ≤ file.length →
      file.length ≤ pos + 45 * fuel →
      (specChainLoop hash file start fuel pos prev seen).failed = false →
      (specChainLoop hash file start fuel pos prev seen).stop = file.length := by
  intro fuel
  induction fuel with
  | zero =>
    intro pos prev seen hpos hfuel _
    simp only [specChainLoop]
    omega
  | succ fuel ih =>
    intro pos prev seen hpos hfuel hok
    by_cases hpos2 : pos < file.length
    · cases hdec : decodeAt file pos with
      | none => simp [specChainLoop, hpos2, hdec] at hok
      | some trip =>
        obtain ⟨hdr, blob, next⟩ := trip
        obtain ⟨hn1, hn2⟩ := decodeAt_bounds hdec
        by_cases hcont : prev ≠ 0 ∧ (prev + 1) % M64 ≠ hdr.index
        · simp [specChainLoop, hpos2, hdec, hcont] at hok
        · by_cases hck : hash blob ≠ hdr.blob_checksum
          · simp [specChainLoop, hpos2, hdec, hcont, hck] at hok
          · by_cases hdup : hdr.index ∈ seen
            · simp [specChainLoop, hpos2, hdec, hcont, hck, hdup] at hok
            · have hfuel' : file.length ≤ next + 45 * fuel := by omega
              by_cases hskip : hdr.index < start
              · simp only [specChainLoop, if_pos hpos2, hdec, if_neg hcont, if_neg hck,
                  if_neg hdup, if_pos hskip] at hok ⊢
                exact ih next hdr.index seen hn2 hfuel' hok
              · simp only [specChainLoop, if_pos hpos2, hdec, if_neg hcont, if_neg hck,
                  if_neg hdup, if_neg hskip] at hok ⊢
                exact ih next hdr.index (hdr.index :: seen) hn2 hfuel' hok
    · simp only [specChainLoop, if_neg hpos2]
      omega

theorem descsChain_head_le {k : Nat} {d : SegDesc} {t : List (Nat × SegDesc)}
    (h : descsChain ((k, d) :: t) = true) : d.from_log_idx ≤ d.to_log_idx := by
  cases t with
  | nil => simpa [descsChain] using h
  | cons q t2 =>
    obtain ⟨k2, d2⟩ := q
    simp only [descsChain, Bool.and_eq_true, decide_eq_true_eq] at h
    exact h.1.1

theorem descsChain_from_lt {k : Nat} {d : SegDesc} {t : List (Nat × SegDesc)}
    (h : descsChain ((k, d) :: t) = true) :
    ∀ p ∈ t, d.to_log_idx < p.2.from_log_idx := by
  induction t generalizing k d with
  | nil => intro p hp; cases hp
  | cons q t2 ih =>
    obtain ⟨k2, d2⟩ := q
    intro p hp
    have h' : descsChain ((k2, d2) :: t2) = true := descsChain_tail h
    simp only [descsChain, Bool.and_eq_true, decide_eq_true_eq] at h
    rcases List.mem_cons.mp hp with hq | hq
    · subst hq; exact h.1.2
    · have h2 : d2.from_log_idx ≤ d2.to_log_idx := descsChain_head_le h'
      have h3 := ih (k := k2) (d := d2) h' p hq
      omega

theorem keysMatchFrom_mem {l : List (Nat × SegDesc)} (h : keysMatchFrom l = true) :
    ∀ p ∈ l, p.1 = p.2.from_log_idx := by
  intro p hp
  rw [keysMatchFrom, List.all_eq_true] at h
  simpa using h p hp

theorem pairwise_keys_of_chain {l : List (Nat × SegDesc)}
    (hch : descsChain l = true) (hk : keysMatchFrom l = true) :
    l.Pairwise (fun a b => a.1 < b.1) := by
  induction l with
  | nil => exact List.Pairwise.nil
  | cons p t ih =>
    obtain ⟨k, d⟩ := p
    have hkt : keysMatchFrom t = true := by
      rw [keysMatchFrom, List.all_eq_true]
      intro q hq
      rw [keysMatchFrom, List.all_eq_true] at hk
      exact hk q (List.mem_cons_of_mem _ hq)
    refine List.Pairwise.cons ?_ (ih (descsChain_tail hch) hkt)
    intro q hq
    have h1 := descsChain_from_lt hch q hq
    have h2 : q.1 = q.2.from_log_idx := keysMatchFrom_mem hkt q hq
    have h3 : d.from_log_idx ≤ d.to_log_idx := descsChain_head_le hch
    have h4 : (k, d).1 = d.from_log_idx := keysMatchFrom_mem hk (k, d) (List.mem_cons_self _ _)
    dsimp only at h4 ⊢
    omega

theorem paths_ne_of_mem {l : List (Nat × SegDesc)} (hp : pathsDistinct l = true) :
    ∀ a ∈ l, ∀ b ∈ l, a.1 ≠ b.1 → a.2.path ≠ b.2.path := by
  induction l with
  | nil => intro a ha; cases ha
  | cons p t ih =>
    simp only [pathsDistinct, Bool.and_eq_true, List.all_eq_true, decide_eq_true_eq] at hp
    intro a ha b hb hab
    rcases List.mem_cons.mp ha with he | ha2
    · rcases List.mem_cons.mp hb with he2 | hb2
      · subst he; subst he2; exact absurd rfl hab
      · subst he; exact fun hpp => (hp.1 b hb2) hpp.symm
    · rcases List.mem_cons.mp hb with he2 | hb2
      · subst he2; exact hp.1 a ha2
      · exact ih hp.2 a ha2 b hb2 hab

theorem filter_le_getLast {l : List (Nat × SegDesc)} {c : Nat} {d : SegDesc}
    (hmem : (c, d) ∈ l) (hsorted : l.Pairwise (fun a b => a.1 < b.1)) :
    (l.filter (fun p => decide (p.1 ≤ c))).getLast? = some (c, d) := by
  induction l with
  | nil => cases hmem
  | cons p t ih =>
    obtain ⟨hlt, hpw⟩ := List.pairwise_cons.mp hsorted
    rcases List.mem_cons.mp hmem with he | hm
    · have hfil : t.filter (fun p => decide (p.1 ≤ c)) = [] := by
        rw [List.filter_eq_nil_iff]
        intro q hq
        have := hlt q hq
        rw [← he] at this
        simp only [decide_eq_true_eq]
        omega
      rw [List.filter_cons, ← he]
      simp [hfil]
    · have hc : p.1 < c := by
        have := hlt (c, d) hm
        exact this
      have iht := ih hm hpw
      rw [List.filter_cons, if_pos (by simp; omega)]
      cases hfe : t.filter (fun p => decide (p.1 ≤ c)) with
      | nil => rw [hfe] at iht; exact absurd iht (by simp)
      | cons x xs =>
        rw [hfe] at iht
        rw [List.getLast?_cons_cons]
        exact iht

theorem mem_insertA_self {α : Type} (m : List (Nat × α)) (k : Nat) (v : α) :
    (k, v) ∈ insertA m k v := by
  induction m with
  | nil => exact List.mem_singleton.mpr rfl
  | cons p t ih =>
    obtain ⟨k0, v0⟩ := p
    by_cases h1 : k < k0
    · simp [insertA, h1]
    · by_cases h2 : k = k0
      · simp [insertA, h1, h2]
      · simp only [insertA, if_neg h1, if_neg h2]
        exact List.mem_cons_of_mem _ ih

theorem recoverScan_break (hash : Hash) (f : FS) (flx : Nat) :
    ∀ (segs : List (Nat × SegDesc)) (acc : ScanAcc),
      acc.incomplete_log_idx = 0 →
      (recoverScan hash f flx segs acc).incomplete_log_idx ≠ 0 →
      ∃ d, ((recoverScan hash f flx segs acc).incomplete_log_idx, d) ∈ segs ∧
        (recoverScan hash f flx segs acc).res.entries_read
          < (recoverScan hash f flx segs acc).entries_in_last ∧
        (recoverScan hash f flx segs acc).entries_in_last
          = d.to_log_idx - d.from_log_idx + 1 := by
  intro segs
  induction segs with
  | nil =>
    intro acc h0 hne
    exact absurd h0 (by simpa [recoverScan] using hne)
  | cons p t ih =>
    obtain ⟨k, d⟩ := p
    intro acc h0 hne
    by_cases hrep : flx ≤ d.to_log_idx
    · by_cases hshort : (readChangelog hash ((fsGet f d.path).getD []) flx acc.logs
          acc.offs).1.entries_read < d.to_log_idx - d.from_log_idx + 1
      · refine ⟨d, ?_, ?_, ?_⟩ <;>
          simp [recoverScan, hrep, hshort]
      · simp only [recoverScan, if_pos hrep, if_neg hshort] at hne ⊢
        obtain ⟨d2, hmem, hrest⟩ := ih _ (by simp [h0]) hne
        exact ⟨d2, List.mem_cons_of_mem _ hmem, hrest⟩
    · simp only [recoverScan, if_neg hrep] at hne ⊢
      obtain ⟨d2, hmem, hrest⟩ := ih _ (by simpa using h0) hne
      exact ⟨d2, List.mem_cons_of_mem _ hmem, hrest⟩


theorem recoverAcc_break (hash : Hash) (st : ChState) (flx : Nat)
    (hinc : (recoverAcc hash st flx).incomplete_log_idx ≠ 0) :
    ∃ d, ((recoverAcc hash st flx).incomplete_log_idx, d) ∈ st.existing_changelogs ∧
      (recoverAcc hash st flx).res.entries_read
        < (recoverAcc hash st flx).entries_in_last ∧
      (recoverAcc hash st flx).entries_in_last
        = d.to_log_idx - d.from_log_idx + 1 :=
  recoverScan_break hash st.fs flx st.existing_changelogs
    ⟨st.logs, st.index_to_start_pos, 0, 0, 0, ⟨0, 0, false⟩⟩ rfl hinc

theorem appendEntry_no_rotate_spec (hash : Hash) (st : ChState) (idx : Nat) (e : LogEntry)
    (sync : Bool) (w : Writer) (hw : st.current_writer = some w)
    (hnr : ¬w.entries_written = st.rotate_interval)
    (hnone : lookupA st.index_to_start_pos idx = none) :
    ∃ st2, appendEntry hash st idx e sync = .ok st2 ∧
      st2.logs = insertA st.logs idx (makeClone e) ∧
      st2.index_to_start_pos = insertA st.index_to_start_pos idx
        ((fsGet st.fs w.filepath).getD []).length ∧
      st2.existing_changelogs = st.existing_changelogs ∧
      st2.current_writer = some ⟨w.filepath, incWrap w.entries_written, w.start_index⟩ ∧
      st2.fs = fsWrite st.fs w.filepath
        (((fsGet st.fs w.filepath).getD []) ++ serializeRecord (buildRecord hash idx e)) ∧
      st2.rotate_interval = st.rotate_interval ∧
      st2.changelogs_dir = st.changelogs_dir := by
  by_cases h1 : st.logs.isEmpty
  · simp only [appendEntry, hw, h1, if_neg hnr, hnone, if_true, ite_true, Option.isSome_none,
      Bool.false_eq_true, ite_false]
    exact ⟨_, rfl, rfl, rfl, rfl, rfl, rfl, rfl, rfl⟩
  · simp only [appendEntry, hw, h1, if_neg hnr, hnone, Bool.not_eq_true, if_true, ite_true,
      Option.isSome_none, Bool.false_eq_true, ite_false, if_false]
    exact ⟨_, rfl, rfl, rfl, rfl, rfl, rfl, rfl, rfl⟩

theorem appendEntry_rotate_spec (hash : Hash) (st : ChState) (idx : Nat) (e : LogEntry)
    (sync : Bool) (w : Writer) (hw : st.current_writer = some w)
    (hr : w.entries_written = st.rotate_interval)
    (hnone : lookupA st.index_to_start_pos idx = none) :
    ∃ st2, appendEntry hash st idx e sync = .ok st2 ∧
      st2.logs = insertA st.logs idx (makeClone e) ∧
      st2.index_to_start_pos = insertA st.index_to_start_pos idx 0 ∧
      st2.existing_changelogs = insertA st.existing_changelogs idx
        ⟨"changelog", idx, idx + st.rotate_interval - 1,
          ⟨st.changelogs_dir, "changelog", idx, idx + st.rotate_interval - 1⟩⟩ ∧
      st2.current_writer = some
        ⟨⟨st.changelogs_dir, "changelog", idx, idx + st.rotate_interval - 1⟩, incWrap 0, idx⟩ ∧
      st2.fs = fsWrite
        (fsWrite st.fs ⟨st.changelogs_dir, "changelog", idx, idx + st.rotate_interval - 1⟩ [])
        ⟨st.changelogs_dir, "changelog", idx, idx + st.rotate_interval - 1⟩
        (serializeRecord (buildRecord hash idx e)) ∧
      st2.rotate_interval = st.rotate_interval ∧
      st2.changelogs_dir = st.changelogs_dir := by
  by_cases h1 : st.logs.isEmpty
  · simp only [appendEntry, hw, h1, if_pos hr, rotate, hnone, if_true, ite_true,
      Option.isSome_none, Bool.false_eq_true, ite_false]
    refine ⟨_, rfl, rfl, ?_, rfl, rfl, ?_, rfl, rfl⟩
    · simp [fsGet_fsWrite]
    · simp [fsGet_fsWrite]
  · simp only [appendEntry, hw, h1, if_pos hr, rotate, hnone, Bool.not_eq_true, if_true,
      ite_true, Option.isSome_none, Bool.false_eq_true, ite_false, if_false]
    refine ⟨_, rfl, rfl, ?_, rfl, rfl, ?_, rfl, rfl⟩
    · simp [fsGet_fsWrite]
    · simp [fsGet_fsWrite]





theorem decWrap_foldl (l : List Nat) : ∀ x : Nat, x < M64 →
    l.foldl (fun a _ => decWrap a) x = (x + (M64 - 1) * l.length) % M64 := by
  induction l with
  | nil => intro x hx; simp [Nat.mod_eq_of_lt hx]
  | cons a t ih =>
    intro x hx
    have hd : decWrap x < M64 := Nat.mod_lt _ (by norm_num [M64])
    simp only [List.foldl_cons, List.length_cons]
    rw [ih (decWrap x) hd]
    unfold decWrap
    rw [Nat.mod_add_mod]
    congr 1
    ring

theorem wrap_ne (R d : Nat) (hR : R < M64) (hd0 : 0 < d) (hdM : d < M64) :
    (R + (M64 - 1) * d) % M64 ≠ R := by
  intro he
  have hM : 0 < M64 := by norm_num [M64]
  rw [Nat.add_mod] at he
  rw [Nat.mod_eq_of_lt hR] at he
  set y := (M64 - 1) * d % M64 with hy
  have hyM : y < M64 := Nat.mod_lt _ hM
  have hy0 : y = 0 := by
    rcases Nat.lt_or_ge (R + y) M64 with hlt | hge
    · rw [Nat.mod_eq_of_lt hlt] at he; omega
    · have h2 : R + y - M64 < M64 := by omega
      rw [Nat.mod_eq_sub_mod hge, Nat.mod_eq_of_lt h2] at he
      omega
  have hdvd : M64 ∣ (M64 - 1) * d := Nat.dvd_of_mod_eq_zero hy0
  have hco : Nat.Coprime M64 (M64 - 1) := by
    have h1 : 1 + (M64 - 1) = M64 := by norm_num [M64]
    rw [← h1]
    exact (Nat.coprime_add_self_left).mpr (Nat.coprime_one_left _)
  have : M64 ∣ d := hco.dvd_of_dvd_mul_left hdvd
  have := Nat.le_of_dvd hd0 this
  omega

theorem rangeMap_filter_lt {α : Type} (g : Nat → α) :
    ∀ (n m : Nat), 1 ≤ m → m ≤ n + 1 →
      ((List.range n).map (fun i => (i + 1, g (i + 1)))).filter
          (fun p => decide (p.1 < m))
        = (List.range (m - 1)).map (fun i => (i + 1, g (i + 1))) := by
  intro n
  induction n with
  | zero =>
    intro m h1 h2
    have : m = 1 := by omega
    subst this
    rfl
  | succ n ih =>
    intro m h1 h2
    by_cases hm : m ≤ n + 1
    · have hlt : ¬(n + 1 < m) := by omega
      rw [List.range_succ, List.map_append, List.filter_append, ih m h1 hm]
      simp [hlt]
    · have hm2 : m = n + 2 := by omega
      subst hm2
      rw [List.filter_eq_self.mpr]
      · simp [Nat.add_sub_cancel]
      · intro p hp
        rw [List.mem_map] at hp
        obtain ⟨i, hi, he⟩ := hp
        rw [List.mem_range] at hi
        subst he
        simp only [decide_eq_true_eq]
        omega

theorem rangeMap_filter_ge {α : Type} (g : Nat → α) :
    ∀ (n m : Nat), 1 ≤ m → m ≤ n + 1 →
      ((List.range n).map (fun i => (i + 1, g (i + 1)))).filter
          (fun p => decide (m ≤ p.1))
        = (List.range (n + 1 - m)).map (fun i => (m + i, g (m + i))) := by
  intro n
  induction n with
  | zero =>
    intro m h1 h2
    have : m = 1 := by omega
    subst this
    rfl
  | succ n ih =>
    intro m h1 h2
    by_cases hm : m ≤ n + 1
    · rw [List.range_succ, List.map_append, List.filter_append, ih m h1 hm]
      have hr : n + 1 + 1 - m = (n + 1 - m) + 1 := by omega
      rw [hr, List.range_succ, List.map_append]
      have he : m + (n + 1 - m) = n + 1 := by omega
      simp [he, hm]
    · have hm2 : m = n + 2 := by omega
      subst hm2
      rw [List.filter_eq_nil_iff.mpr]
      · simp
      · intro p hp
        rw [List.mem_map] at hp
        obtain ⟨i, hi, he⟩ := hp
        rw [List.mem_range] at hi
        subst he
        simp only [decide_eq_true_eq]
        omega

theorem div_sandwich (j R : Nat) (hR : 1 ≤ R) (hj : 1 ≤ j) :
    ((j - 1) / R) * R + 1 ≤ j ∧ j ≤ ((j - 1) / R) * R + R := by
  have h1 : (j - 1) / R * R + (j - 1) % R = j - 1 := Nat.div_add_mod' _ _
  have h2 : (j - 1) % R < R := Nat.mod_lt _ (by omega)
  omega





theorem appendSeq_full_spec (hash : Hash) (dir : String) (R : Nat) (es : Nat → LogEntry)
    (sync : Bool) (hR : 1 ≤ R) (hRM : R < M64) :
    ∀ j, 1 ≤ j → ∃ st, appendSeq hash es sync j (initState hash dir R) = .ok st ∧
      st.logs = expectedLogs es j ∧
      keysOf st.index_to_start_pos = (List.range j).map (fun i => i + 1) ∧
      st.existing_changelogs = expectedSegs dir R ((j - 1) / R) ∧
      st.current_writer = some ⟨segPathAt dir R ((j - 1) / R), j - ((j - 1) / R) * R,
        ((j - 1) / R) * R + 1⟩ ∧
      (∀ k, k ≤ (j - 1) / R → (fsGet st.fs (segPathAt dir R k)).isSome = true) ∧
      st.rotate_interval = R ∧
      st.changelogs_dir = dir := by
  have hM1 : (1 : Nat) < M64 := by norm_num [M64]
  intro j hj
  induction j, hj using Nat.le_induction with
  | base =>
    obtain ⟨st2, hok, hlogs, hoffs, hsegs, hw, hfs, hri, hdir⟩ :=
      appendEntry_no_rotate_spec hash (initState hash dir R) 1 (es 1) sync
        ⟨⟨dir, "changelog", 1, 1 + R - 1⟩, 0, 1⟩ rfl
        (by show ¬(0 = R); omega) rfl
    have hq0 : (1 - 1) / R = 0 := by simp
    have hpe : segPathAt dir R 0 = (⟨dir, "changelog", 1, 1 + R - 1⟩ : SegPath) := by
      unfold segPathAt
      congr 1 <;> omega
    have hseg0 : expectedSegs dir R 0
        = [(1, (⟨"changelog", 1, 1 + R - 1, ⟨dir, "changelog", 1, 1 + R - 1⟩⟩ : SegDesc))] := by
      unfold expectedSegs segDescAt segPathAt
      have h1 : List.range 1 = [0] := rfl
      rw [h1]
      simp only [List.map_cons, List.map_nil, Nat.zero_mul, Nat.zero_add,
        List.cons.injEq, and_true, Prod.mk.injEq, SegDesc.mk.injEq, SegPath.mk.injEq]
      norm_num
    refine ⟨st2, hok, ?_, ?_, ?_, ?_, ?_, ?_, ?_⟩
    · rw [hlogs]; rfl
    · rw [hoffs]; rfl
    · rw [hsegs, hq0, hseg0]; rfl
    · rw [hw, hq0, hpe]
      dsimp only
      simp [incWrap, Nat.mod_eq_of_lt hM1]
    · intro k hk
      rw [hq0] at hk
      have hk0 : k = 0 := by omega
      subst hk0
      rw [hfs, fsGet_fsWrite]
      dsimp only
      rw [hpe, if_pos rfl]
      rfl
    · rw [hri]; rfl
    · rw [hdir]; rfl
  | succ j hj ih =>
    obtain ⟨st, hok, hlogs, hoffs, hsegs, hw, hfs, hri, hdir⟩ := ih
    obtain ⟨hlb, hub⟩ := div_sandwich j R hR hj
    have hnone : lookupA st.index_to_start_pos (j + 1) = none := by
      apply lookupA_eq_none_of_not_mem
      rw [hoffs]
      simp only [List.mem_map, List.mem_range]
      rintro ⟨i, hi, he⟩
      omega
    have hofflt : ∀ p ∈ st.index_to_start_pos, p.1 < j + 1 := by
      intro p hp
      have hm : p.1 ∈ keysOf st.index_to_start_pos := List.mem_map_of_mem Prod.fst hp
      rw [hoffs] at hm
      simp only [List.mem_map, List.mem_range] at hm
      omega
    have hloglt : ∀ p ∈ st.logs, p.1 < j + 1 := by
      intro p hp
      rw [hlogs] at hp
      unfold expectedLogs at hp
      simp only [List.mem_map, List.mem_range] at hp
      obtain ⟨i, hi, he⟩ := hp
      have : p.1 = i + 1 := by rw [← he]
      omega
    have hsegkey : ∀ p ∈ expectedSegs dir R ((j - 1) / R), p.1 < j + 1 := by
      intro p hp
      unfold expectedSegs at hp
      simp only [List.mem_map, List.mem_range] at hp
      obtain ⟨k, hk, he⟩ := hp
      have hp1 : p.1 = k * R + 1 := by rw [← he]
      have hmul : k * R ≤ ((j - 1) / R) * R := Nat.mul_le_mul_right R (by omega)
      omega
    by_cases hcase : j = ((j - 1) / R) * R + R
    · -- the current segment is full: append rotates to a fresh one
      have hr' : (⟨segPathAt dir R ((j - 1) / R), j - ((j - 1) / R) * R,
          ((j - 1) / R) * R + 1⟩ : Writer).entries_written = st.rotate_interval := by
        rw [hri]; dsimp only; omega
      obtain ⟨st2, hok2, hlogs2, hoffs2, hsegs2, hw2, hfs2, hri2, hdir2⟩ :=
        appendEntry_rotate_spec hash st (j + 1) (es (j + 1)) sync _ hw hr' hnone
      rw [hri, hdir] at hsegs2 hw2 hfs2
      have hq' : (j + 1 - 1) / R = (j - 1) / R + 1 := by
        have h1 : j + 1 - 1 = ((j - 1) / R + 1) * R := by rw [Nat.succ_mul]; omega
        rw [h1, Nat.mul_div_cancel _ (by omega : 0 < R)]
      refine ⟨st2, ?_, ?_, ?_, ?_, ?_, ?_, ?_, ?_⟩
      · simp only [appendSeq, hok, hok2]
      · rw [hlogs2, hlogs, insertA_of_forall_lt _ _ _ (by rw [← hlogs]; exact hloglt)]
        unfold expectedLogs
        rw [List.range_succ, List.map_append]
        rfl
      · rw [hoffs2, insertA_of_forall_lt _ _ _ hofflt]
        rw [keysOf, List.map_append]
        rw [show List.map Prod.fst st.index_to_start_pos = keysOf st.index_to_start_pos
          from rfl, hoffs, List.range_succ, List.map_append]
        rfl
      · rw [hsegs2, hsegs, insertA_of_forall_lt _ _ _ hsegkey, hq']
        have hstep : expectedSegs dir R ((j - 1) / R + 1)
            = expectedSegs dir R ((j - 1) / R)
              ++ [(((j - 1) / R + 1) * R + 1, segDescAt dir R ((j - 1) / R + 1))] := by
          unfold expectedSegs
          rw [List.range_succ, List.map_append]
          rfl
        rw [hstep]
        unfold segDescAt segPathAt
        rw [show ((j - 1) / R + 1) * R + 1 = j + 1 by rw [Nat.succ_mul]; omega,
          show ((j - 1) / R + 1) * R + R = j + 1 + R - 1 by rw [Nat.succ_mul]; omega]
      · rw [hw2, hq']
        have hp1 : segPathAt dir R ((j - 1) / R + 1)
            = (⟨dir, "changelog", j + 1, j + 1 + R - 1⟩ : SegPath) := by
          unfold segPathAt
          rw [show ((j - 1) / R + 1) * R + 1 = j + 1 by rw [Nat.succ_mul]; omega,
            show ((j - 1) / R + 1) * R + R = j + 1 + R - 1 by rw [Nat.succ_mul]; omega]
        rw [hp1]
        have he1 : incWrap 0 = j + 1 - ((j - 1) / R + 1) * R := by
          unfold incWrap
          rw [Nat.mod_eq_of_lt hM1, Nat.succ_mul]
          omega
        have he2 : ((j - 1) / R + 1) * R + 1 = j + 1 := by
          rw [Nat.succ_mul]; omega
        rw [he1, he2]
      · intro k hk
        rw [hq'] at hk
        rw [hfs2, fsGet_fsWrite]
        by_cases hkq : k = (j - 1) / R + 1
        · subst hkq
          rw [if_pos]
          · rfl
          · unfold segPathAt
            rw [show ((j - 1) / R + 1) * R + 1 = j + 1 by rw [Nat.succ_mul]; omega,
              show ((j - 1) / R + 1) * R + R = j + 1 + R - 1 by rw [Nat.succ_mul]; omega]
        · have hne : segPathAt dir R k
              ≠ (⟨dir, "changelog", j + 1, j + 1 + R - 1⟩ : SegPath) := by
            have hmul : k * R ≤ ((j - 1) / R) * R := Nat.mul_le_mul_right R (by omega)
            unfold segPathAt
            intro he
            have h1 := congrArg SegPath.from_idx he
            dsimp only at h1
            omega
          rw [if_neg hne, fsGet_fsWrite, if_neg hne]
          exact hfs k (by omega)
      · rw [hri2, hri]
      · rw [hdir2, hdir]
    · -- room left in the current segment: plain append
      have hlt : j < ((j - 1) / R) * R + R := by omega
      have hq' : (j + 1 - 1) / R = (j - 1) / R := by
        have h1 : ((j - 1) / R) * R ≤ j := by omega
        have h2 : j < ((j - 1) / R + 1) * R := by rw [Nat.succ_mul]; omega
        simpa using Nat.div_eq_of_lt_le h1 h2
      have hnr' : ¬(⟨segPathAt dir R ((j - 1) / R), j - ((j - 1) / R) * R,
          ((j - 1) / R) * R + 1⟩ : Writer).entries_written = st.rotate_interval := by
        rw [hri]; dsimp only; omega
      obtain ⟨st2, hok2, hlogs2, hoffs2, hsegs2, hw2, hfs2, hri2, hdir2⟩ :=
        appendEntry_no_rotate_spec hash st (j + 1) (es (j + 1)) sync _ hw hnr' hnone
      refine ⟨st2, ?_, ?_, ?_, ?_, ?_, ?_, ?_, ?_⟩
      · simp only [appendSeq, hok, hok2]
      · rw [hlogs2, hlogs, insertA_of_forall_lt _ _ _ (by rw [← hlogs]; exact hloglt)]
        unfold expectedLogs
        rw [List.range_succ, List.map_append]
        rfl
      · rw [hoffs2, insertA_of_forall_lt _ _ _ hofflt]
        rw [keysOf, List.map_append]
        rw [show List.map Prod.fst st.index_to_start_pos = keysOf st.index_to_start_pos
          from rfl, hoffs, List.range_succ, List.map_append]
        rfl
      · rw [hsegs2, hsegs, hq']
      · rw [hw2, hq']
        dsimp only
        have he1 : incWrap (j - ((j - 1) / R) * R) = j + 1 - ((j - 1) / R) * R := by
          unfold incWrap
          rw [Nat.mod_eq_of_lt (by omega : j - ((j - 1) / R) * R + 1 < M64)]
          omega
        rw [he1]
      · intro k hk
        rw [hq'] at hk
        rw [hfs2, fsGet_fsWrite]
        by_cases hkq : k = (j - 1) / R
        · subst hkq
          rw [if_pos rfl]
          rfl
        · by_cases hpe : segPathAt dir R k = segPathAt dir R ((j - 1) / R)
          · rw [if_pos hpe]
            rfl
          · rw [if_neg hpe]
            exact hfs k hk
      · rw [hri2, hri]
      · rw [hdir2, hdir]

theorem expectedSegs_cons (dir : String) (R q : Nat) :
    expectedSegs dir R q = (1, segDescAt dir R 0)
      :: (List.range q).map (fun k => ((k + 1) * R + 1, segDescAt dir R (k + 1))) := by
  unfold expectedSegs
  rw [List.range_succ_eq_map, List.map_cons, List.map_map]
  simp [segDescAt, segPathAt, Function.comp]

theorem rollback_eval (stN : ChState) (dir : String) (R n m : Nat)
    (hR : 1 ≤ R) (hm1 : 1 ≤ m) (hmR : m ≤ R) (hq1 : 1 ≤ (n - 1) / R)
    (hsegs : stN.existing_changelogs = expectedSegs dir R ((n - 1) / R)) :
    ∃ ik, rollbackReopen stN m = .ok { stN with
      fs := fsWrite stN.fs (segPathAt dir R 0) ((fsGet stN.fs (segPathAt dir R 0)).getD []),
      current_writer := some ⟨segPathAt dir R 0, R, ik⟩ } := by
  obtain ⟨q', hq'⟩ : ∃ q', (n - 1) / R = q' + 1 := ⟨(n - 1) / R - 1, by omega⟩
  rw [hq'] at hsegs
  have hew : (segDescAt dir R 0).to_log_idx - (segDescAt dir R 0).from_log_idx + 1 = R := by
    unfold segDescAt
    dsimp only
    omega
  have htail : (List.range (q' + 1)).map
        (fun k => ((k + 1) * R + 1, segDescAt dir R (k + 1)))
      = ((0 + 1) * R + 1, segDescAt dir R (0 + 1))
        :: (List.range q').map (fun k => ((k + 1 + 1) * R + 1, segDescAt dir R (k + 1 + 1))) := by
    rw [List.range_succ_eq_map, List.map_cons, List.map_map]
    rfl
  rw [expectedSegs_cons, htail] at hsegs
  unfold rollbackReopen
  rw [hsegs]
  by_cases hm : m = 1
  · subst hm
    refine ⟨1, ?_⟩
    rw [List.takeWhile_cons, List.dropWhile_cons]
    simp only [decide_eq_true_eq, Nat.lt_irrefl, ite_false, if_false]
    rw [if_pos trivial]
    dsimp only
    rw [hew]
    rfl
  · refine ⟨(0 + 1) * R + 1, ?_⟩
    rw [List.takeWhile_cons, List.dropWhile_cons]
    have hc1 : ((1 : Nat), segDescAt dir R 0).1 < m := by dsimp only; omega
    simp only [hc1, decide_True, if_true]
    rw [List.takeWhile_cons, List.dropWhile_cons]
    have hc2 : ¬(((0 + 1) * R + 1, segDescAt dir R (0 + 1)).1 < m) := by dsimp only; omega
    simp only [hc2, decide_False, Bool.false_eq_true, if_false, ite_false]
    rw [if_neg (by dsimp only; omega : ¬((0 + 1) * R + 1, segDescAt dir R (0 + 1)).1 = m)]
    simp only [List.takeWhile_nil, List.getLast?_singleton, Option.map_some']
    rw [hew]
    rfl


theorem expectedSegs_filter_le (dir : String) (R q m : Nat)
    (hm1 : 1 ≤ m) (hmR : m ≤ R) :
    (expectedSegs dir R q).filter (fun p => decide (p.1 ≤ m)) = [(1, segDescAt dir R 0)] := by
  rw [expectedSegs_cons, List.filter_cons]
  rw [if_pos (by simp only [decide_eq_true_eq]; omega)]
  rw [List.filter_eq_nil_iff.mpr]
  intro p hp
  simp only [List.mem_map, List.mem_range] at hp
  obtain ⟨k, hk, he⟩ := hp
  have hp1 : p.1 = (k + 1) * R + 1 := by rw [← he]
  simp only [decide_eq_true_eq]
  have : 1 * R ≤ (k + 1) * R := Nat.mul_le_mul_right R (by omega)
  omega

theorem expectedSegs_filter_gt (dir : String) (R q m : Nat)
    (hm1 : 1 ≤ m) (hmR : m ≤ R) :
    (expectedSegs dir R q).filter (fun p => decide (m < p.1))
      = (List.range q).map (fun k => ((k + 1) * R + 1, segDescAt dir R (k + 1))) := by
  rw [expectedSegs_cons, List.filter_cons]
  rw [if_neg (by simp only [decide_eq_true_eq]; omega)]
  rw [List.filter_eq_self.mpr]
  intro p hp
  simp only [List.mem_map, List.mem_range] at hp
  obtain ⟨k, hk, he⟩ := hp
  have hp1 : p.1 = (k + 1) * R + 1 := by rw [← he]
  simp only [decide_eq_true_eq]
  have : 1 * R ≤ (k + 1) * R := Nat.mul_le_mul_right R (by omega)
  omega

theorem segPathAt_ne_zero (dir : String) (R k : Nat) (hR : 1 ≤ R) (hk : 1 ≤ k) :
    segPathAt dir R k ≠ segPathAt dir R 0 := by
  unfold segPathAt
  intro he
  have h1 := congrArg SegPath.from_idx he
  dsimp only at h1
  have : 1 * R ≤ k * R := Nat.mul_le_mul_right R hk
  omega

end ChangelogProof

namespace ChangelogProof

/-! ## Claim theorems -/

/-- C10: `entryAt` never fails: for every index it returns `none` when the
index is not live and `some (makeClone stored)` otherwise, and the clone
agrees with the stored entry on term, value type and blob.  `entryAt` is a
pure function of the state, so the changelog state is unchanged by
construction. -/
theorem claim_C10_entryAt_total_clone (st : ChState) (idx : Nat) (e : LogEntry) :
    entryAt st idx = Option.map makeClone (lookupA st.logs idx) ∧
      (makeClone e).term = e.term ∧ (makeClone e).val_type = e.val_type ∧
      (makeClone e).buf = e.buf := by
  refine ⟨?_, rfl, rfl, rfl⟩
  unfold entryAt
  cases lookupA st.logs idx <;> rfl

/-- C9: appending at an index already present in the offsets map throws a
logical error (whether or not a writer is open), and the state carried at the
throw has the entries map and the offsets map unchanged — the duplicate is
not inserted and the stored entry is not overwritten. -/
theorem claim_C9_append_duplicate_fails (hash : Hash) (st : ChState) (idx : Nat)
    (e : LogEntry) (sync : Bool) (h : (lookupA st.index_to_start_pos idx).isSome = true) :
    ∃ st', appendEntry hash st idx e sync = .error (.logicalError, st') ∧
      st'.logs = st.logs ∧ st'.index_to_start_pos = st.index_to_start_pos := by
  cases hw : st.current_writer with
  | none => exact ⟨st, by simp [appendEntry, hw], rfl, rfl⟩
  | some w =>
    by_cases h1 : st.logs.isEmpty
    · by_cases h2 : w.entries_written = st.rotate_interval
      · simp [appendEntry, hw, h1, h2, rotate, h]
      · simp [appendEntry, hw, h1, h2, h]
    · by_cases h2 : w.entries_written = st.rotate_interval
      · simp [appendEntry, hw, h1, h2, rotate, h]
      · simp [appendEntry, hw, h1, h2, h]

theorem claim_C9_append_duplicate_fails_witness :
    (lookupA dupState.index_to_start_pos 4).isSome = true ∧
      ∃ st', appendEntry testHash dupState 4 (testEntry 1) true = .error (.logicalError, st') ∧
        st'.logs = dupState.logs ∧ st'.index_to_start_pos = dupState.index_to_start_pos :=
  ⟨by decide, claim_C9_append_duplicate_fails testHash dupState 4 (testEntry 1) true (by decide)⟩

/-- C1: evaluation of the failing input for the claim on `write_at`'s
cross-segment reopen.  With `rotate_interval = 3` and entries `1..7` appended
(segments reserved `[1,3]`, `[4,6]`, `[7,9]`), the rollback block of
`writeAt(5, ·)` reopens the segment containing index 5 — the one with
`FROM = 4`, `TO = 6` — and sets `entries_written = TO - FROM + 1 = 3` as the
claim states, but it initializes the writer's start index to 7, the key of
the `lower_bound(5)` iterator (the next segment's FROM), not to `s.FROM = 4`. -/
theorem claim_C1_reopen_start_index_eval :
    (fixtureAppend7.bind (fun st => rollbackReopen st 5)).toOption.map
        (fun st => st.current_writer)
      = some (some ⟨⟨"d", "changelog", 4, 6⟩, 3, 7⟩) ∧
    fixtureAppend7.toOption.map (fun st => lookupA st.existing_changelogs 4)
      = some (some ⟨"changelog", 4, 6, ⟨"d", "changelog", 4, 6⟩⟩) ∧
    (7 : Nat) ≠ 4 := by
  refine ⟨by decide, by decide, by decide⟩

/-- C2: evaluation of the failing input for invariant I1.  With
`rotate_interval = 3`, after `append(1..6)` (segments `[1,3]` and `[4,6]`,
both full) and `compact(5)`, the entries map holds exactly key 6 while the
offsets map still holds keys 4, 5 and 6: `compact` erases offsets only for
whole dropped segments but erases entries for every key `≤ up_to`, so the two
key sets differ when `up_to` falls strictly inside a retained segment. -/
theorem claim_C2_compact_key_sets_differ_eval :
    fixtureCompact5.map (fun st => (keysOf st.logs, keysOf st.index_to_start_pos))
      = some ([6], [4, 5, 6]) ∧ ([6] : List Nat) ≠ [4, 5, 6] := by
  refine ⟨by decide, by decide⟩

/-- C7: after `compact(up_to)`, `start_index = up_to + 1`; the entries map
keeps exactly the keys above `up_to`; every segment whose TO is at most
`up_to` loses both its descriptor and its file; and no segment is split — a
segment with TO above `up_to` keeps its descriptor and its file bytes
untouched.  Hypotheses: the segment map is a well-formed chain (each
`FROM ≤ TO`, ranges strictly increasing) with pairwise-distinct paths. -/
theorem claim_C7_compact_whole_segments (st : ChState) (u : Nat)
    (hch : descsChain st.existing_changelogs = true)
    (hp : pathsDistinct st.existing_changelogs = true) :
    (compact st u).start_index = u + 1 ∧
      (compact st u).logs = st.logs.filter (fun p => decide (u < p.1)) ∧
      (compact st u).existing_changelogs
        = st.existing_changelogs.filter (fun p => decide (u < p.2.to_log_idx)) ∧
      (∀ p ∈ st.existing_changelogs, p.2.to_log_idx ≤ u →
        fsGet (compact st u).fs p.2.path = none) ∧
      (∀ p ∈ st.existing_changelogs, u < p.2.to_log_idx →
        fsGet (compact st u).fs p.2.path = fsGet st.fs p.2.path) := by
  have h := compactSegsGo_spec u st.existing_changelogs st.index_to_start_pos st.fs hch hp
  exact ⟨rfl, rfl, h.1, h.2.1, h.2.2⟩

theorem claim_C7_compact_whole_segments_witness :
    descsChain compactFixture.existing_changelogs = true ∧
      pathsDistinct compactFixture.existing_changelogs = true ∧
      fsGet (compact compactFixture 3).fs segA.path = none ∧
      fsGet (compact compactFixture 3).fs segB.path = fsGet compactFixture.fs segB.path ∧
      (compact compactFixture 3).start_index = 4 :=
  ⟨by decide, by decide,
    (claim_C7_compact_whole_segments compactFixture 3 (by decide) (by decide)).2.2.2.1
      (1, segA) (by decide) (by decide),
    (claim_C7_compact_whole_segments compactFixture 3 (by decide) (by decide)).2.2.2.2
      (4, segB) (by decide) (by decide),
    (claim_C7_compact_whole_segments compactFixture 3 (by decide) (by decide)).1⟩

/-- C6: after `append(i, e_i)` for consecutive indices `1..n` starting from a
freshly recovered empty changelog, the range read `entries_between(1, n+1)`
holds, at position `k - 1`, (a clone of) the entry `e_k`, for every
`1 ≤ k ≤ n` and every `rotate_interval`. -/
theorem claim_C6_append_then_read (hash : Hash) (dir : String) (R : Nat)
    (es : Nat → LogEntry) (sync : Bool) (n k : Nat) (h1 : 1 ≤ k) (h2 : k ≤ n) :
    ∃ st, appendSeq hash es sync n (initState hash dir R) = .ok st ∧
      (getLogEntriesBetween st 1 (n + 1)).get? (k - 1) = some (some (es k)) := by
  obtain ⟨st, hok, hlogs, _, _⟩ := appendSeq_slim_spec hash dir R es sync n
  refine ⟨st, hok, ?_⟩
  unfold getLogEntriesBetween
  rw [Nat.add_sub_cancel, List.get?_map, List.get?_range (by omega : k - 1 < n)]
  have hk : 1 + (k - 1) = k := by omega
  rw [Option.map_some', hk]
  unfold entryAt
  rw [hlogs, lookupA_rangeMap (fun j => makeClone (es j)) n k h1 h2]
  rfl

theorem claim_C6_append_then_read_witness :
    (1 : Nat) ≤ 2 ∧ (2 : Nat) ≤ 3 ∧
      ∃ st, appendSeq testHash testEntry true 3 (initState testHash "d" 3) = .ok st ∧
        (getLogEntriesBetween st 1 4).get? (2 - 1) = some (some (testEntry 2)) :=
  ⟨by decide, by decide,
    claim_C6_append_then_read testHash "d" 3 testEntry true 3 2 (by decide) (by decide)⟩

/-- C5: the Segment Reader's result, for every hash function, file, window
start and initial maps, refines the specification-side record chain
(`specChainLoop`, built from the spec's words): the error flag agrees with
the chain's failure flag; `entries_read` is the number of fully decoded and
validated records; when no record fails, `last_position` is the start offset
of the last fully-decoded record (0 for an empty file) and the file is
consumed exactly to its end; when a record fails (torn tail, non-contiguous
index, checksum mismatch, duplicate index), `last_position` is the start
offset of that first failing record.  No exception escapes: the reader is a
total function, the source's catch-all converted into the error result. -/
theorem claim_C5_reader_last_position (hash : Hash) (file : List Nat) (start : Nat)
    (logs0 : EntryMap) (offs0 : OffsetMap) :
    (readChangelog hash file start logs0 offs0).1.error
        = (readerSpecChain hash file start (keysOf logs0)).failed ∧
      (readChangelog hash file start logs0 offs0).1.entries_read
        = (readerSpecChain hash file start (keysOf logs0)).starts.length ∧
      ((readerSpecChain hash file start (keysOf logs0)).failed = false →
        (readChangelog hash file start logs0 offs0).1.last_position
            = (readerSpecChain hash file start (keysOf logs0)).starts.getLastD 0 ∧
          (readerSpecChain hash file start (keysOf logs0)).stop = file.length) ∧
      ((readerSpecChain hash file start (keysOf logs0)).failed = true →
        (readChangelog hash file start logs0 offs0).1.last_position
          = (readerSpecChain hash file start (keysOf logs0)).stop) := by
  have hseen : ∀ i, i ∈ keysOf logs0 ↔ (lookupA logs0 i).isSome = true :=
    fun i => (lookupA_isSome_iff_mem logs0 i).symm
  have hfuel : file.length ≤ 0 + 45 * file.length := by omega
  have hmain := readLoop_spec hash file start file.length 0 0 0 0 logs0 offs0
    (keysOf logs0) hseen hfuel
  unfold readChangelog readerSpecChain
  rw [hmain]
  refine ⟨rfl, by simp, ?_, ?_⟩
  · intro hok
    refine ⟨by simp [hok], ?_⟩
    exact specChainLoop_stop hash file start file.length 0 0 (keysOf logs0)
      (by omega) hfuel hok
  · intro hbad
    simp [hbad]

theorem claim_C5_reader_last_position_witness :
    (readerSpecChain testHash tornFile 1 (keysOf ([] : EntryMap))).failed = true ∧
      (readChangelog testHash tornFile 1 [] []).1.last_position
        = (readerSpecChain testHash tornFile 1 (keysOf ([] : EntryMap))).stop :=
  ⟨by decide, (claim_C5_reader_last_position testHash tornFile 1 [] []).2.2.2 (by decide)⟩

/-- C4: during `recover(from_log_idx)` on a well-formed segment directory
(chain-ordered ranges, keys equal to FROMs, distinct paths), if the replay
loop stops at a short segment (`incomplete_log_idx ≠ 0`, i.e. some replayed
segment yielded fewer records than `TO - FROM + 1`), then: every segment with
FROM above that segment's FROM is dropped from the map and its file deleted;
the short segment is reopened in Append mode as the current writer with its
start index set to its FROM and `entries_written` set to the number of
records read from it; and its file is truncated to the reported
`last_position` exactly when the replay ended in error (otherwise the file
bytes are unchanged). -/
theorem claim_C4_recover_short_segment (hash : Hash) (st : ChState) (flx : Nat)
    (hch : descsChain st.existing_changelogs = true)
    (hp : pathsDistinct st.existing_changelogs = true)
    (hk : keysMatchFrom st.existing_changelogs = true)
    (hinc : (recoverAcc hash st flx).incomplete_log_idx ≠ 0) :
    ∃ d, ((recoverAcc hash st flx).incomplete_log_idx, d) ∈ st.existing_changelogs ∧
      (recoverAcc hash st flx).res.entries_read < (recoverAcc hash st flx).entries_in_last ∧
      (recoverAcc hash st flx).entries_in_last = d.to_log_idx - d.from_log_idx + 1 ∧
      (readChangelogAndInitWriter hash st flx).existing_changelogs
        = st.existing_changelogs.filter
            (fun p => decide (p.1 ≤ (recoverAcc hash st flx).incomplete_log_idx)) ∧
      (∀ q ∈ st.existing_changelogs, (recoverAcc hash st flx).incomplete_log_idx < q.1 →
        fsGet (readChangelogAndInitWriter hash st flx).fs q.2.path = none) ∧
      (readChangelogAndInitWriter hash st flx).current_writer
        = some ⟨d.path, (recoverAcc hash st flx).res.entries_read, d.from_log_idx⟩ ∧
      ((recoverAcc hash st flx).res.error = true →
        fsGet (readChangelogAndInitWriter hash st flx).fs d.path
          = some (((fsGet st.fs d.path).getD []).take
              (recoverAcc hash st flx).res.last_position)) ∧
      ((recoverAcc hash st flx).res.error = false →
        fsGet (readChangelogAndInitWriter hash st flx).fs d.path
          = some ((fsGet st.fs d.path).getD [])) := by
  obtain ⟨d, hmem, hshort, hcap⟩ := recoverAcc_break hash st flx hinc
  have hpw := pairwise_keys_of_chain hch hk
  have hlast := filter_le_getLast hmem hpw
  have hfilne : st.existing_changelogs.filter
      (fun p => decide (p.1 ≤ (recoverAcc hash st flx).incomplete_log_idx)) ≠ [] := by
    intro h0
    rw [h0] at hlast
    exact absurd hlast (by simp)
  -- d's path is not among the removed (key > incomplete) segments' paths
  have hdnot : d.path ∉ (st.existing_changelogs.filter
      (fun p => decide ((recoverAcc hash st flx).incomplete_log_idx < p.1))).map
        (fun p => p.2.path) := by
    intro hin
    rw [List.mem_map] at hin
    obtain ⟨q, hqmem, hqp⟩ := hin
    rw [List.mem_filter] at hqmem
    have hlt : (recoverAcc hash st flx).incomplete_log_idx < q.1 := by
      have := hqmem.2
      simpa using this
    exact paths_ne_of_mem hp q hqmem.1
      ((recoverAcc hash st flx).incomplete_log_idx, d) hmem (by dsimp only; omega) hqp
  refine ⟨d, hmem, hshort, hcap, ?_, ?_, ?_, ?_, ?_⟩
  · -- segments map after recovery
    unfold readChangelogAndInitWriter
    dsimp only
    rw [if_pos hinc]
    dsimp only [removeSegsAbove]
    rw [if_pos ⟨hfilne, hshort⟩]
    rw [hlast]
    dsimp only
    by_cases herr : (recoverAcc hash st flx).res.error = true <;>
      simp [herr, truncateWriterFile]
  · -- later segments' files are gone
    intro q hq hlt
    unfold readChangelogAndInitWriter
    dsimp only
    rw [if_pos hinc]
    dsimp only [removeSegsAbove]
    rw [if_pos ⟨hfilne, hshort⟩]
    rw [hlast]
    dsimp only
    have hqne : q.2.path ≠ d.path :=
      paths_ne_of_mem hp q hq ((recoverAcc hash st flx).incomplete_log_idx, d) hmem
        (by dsimp only; omega)
    have hqin : q.2.path ∈ (st.existing_changelogs.filter
        (fun p => decide ((recoverAcc hash st flx).incomplete_log_idx < p.1))).map
          (fun p => p.2.path) :=
      List.mem_map_of_mem _ (List.mem_filter.mpr ⟨hq, by simpa using hlt⟩)
    by_cases herr : (recoverAcc hash st flx).res.error = true <;>
      simp [herr, truncateWriterFile, fsGet_fsWrite, fsGet_foldl_fsErase, hqne, hqin]
  · -- the reopened writer
    unfold readChangelogAndInitWriter
    dsimp only
    rw [if_pos hinc]
    dsimp only [removeSegsAbove]
    rw [if_pos ⟨hfilne, hshort⟩]
    rw [hlast]
    dsimp only
    by_cases herr : (recoverAcc hash st flx).res.error = true <;>
      simp [herr, truncateWriterFile]
  · -- error: truncated to last_position
    intro herr
    unfold readChangelogAndInitWriter
    dsimp only
    rw [if_pos hinc]
    dsimp only [removeSegsAbove]
    rw [if_pos ⟨hfilne, hshort⟩]
    rw [hlast]
    dsimp only
    simp [herr, truncateWriterFile, fsGet_fsWrite, fsGet_foldl_fsErase, hdnot]
  · -- no error: file untouched aside from the append-mode reopen
    intro herr
    unfold readChangelogAndInitWriter
    dsimp only
    rw [if_pos hinc]
    dsimp only [removeSegsAbove]
    rw [if_pos ⟨hfilne, hshort⟩]
    rw [hlast]
    dsimp only
    simp [herr, truncateWriterFile, fsGet_fsWrite, fsGet_foldl_fsErase, hdnot]


/-- C8: during `recover(from_log_idx)`, when there are no segments or the
last replayed segment was full (formalized as: the final read result does not
fall short of the last visited capacity — over an empty map both are zero),
the manager rotates to a fresh segment: the new writer and the inserted
descriptor have `FROM = start_index + total_read` where
`start_index = max(from_log_idx, 1)` and `total_read` sums `entries_read`
over every replayed segment (a count the reader increments before its
`index < from_log_idx` skip, hence including records below the window), and
`TO = FROM + rotate_interval - 1`; the fresh file is created empty. -/
theorem claim_C8_recover_rotates_fresh (hash : Hash) (st : ChState) (flx : Nat)
    (hfull : ¬((recoverAcc hash st flx).res.entries_read
        < (recoverAcc hash st flx).entries_in_last)) :
    (readChangelogAndInitWriter hash st flx).current_writer
        = some ⟨⟨st.changelogs_dir, "changelog",
            (if flx = 0 then 1 else flx) + (recoverAcc hash st flx).total_read,
            (if flx = 0 then 1 else flx) + (recoverAcc hash st flx).total_read
              + st.rotate_interval - 1⟩, 0,
            (if flx = 0 then 1 else flx) + (recoverAcc hash st flx).total_read⟩ ∧
      ((if flx = 0 then 1 else flx) + (recoverAcc hash st flx).total_read,
        (⟨"changelog",
          (if flx = 0 then 1 else flx) + (recoverAcc hash st flx).total_read,
          (if flx = 0 then 1 else flx) + (recoverAcc hash st flx).total_read
            + st.rotate_interval - 1,
          ⟨st.changelogs_dir, "changelog",
            (if flx = 0 then 1 else flx) + (recoverAcc hash st flx).total_read,
            (if flx = 0 then 1 else flx) + (recoverAcc hash st flx).total_read
              + st.rotate_interval - 1⟩⟩ : SegDesc))
        ∈ (readChangelogAndInitWriter hash st flx).existing_changelogs ∧
      fsGet (readChangelogAndInitWriter hash st flx).fs
          ⟨st.changelogs_dir, "changelog",
            (if flx = 0 then 1 else flx) + (recoverAcc hash st flx).total_read,
            (if flx = 0 then 1 else flx) + (recoverAcc hash st flx).total_read
              + st.rotate_interval - 1⟩ = some [] ∧
      (readChangelogAndInitWriter hash st flx).start_index
        = (if flx = 0 then 1 else flx) := by
  have hinc0 : (recoverAcc hash st flx).incomplete_log_idx = 0 := by
    by_contra hne
    obtain ⟨d, _, hshort, _⟩ := recoverAcc_break hash st flx hne
    exact hfull hshort
  unfold readChangelogAndInitWriter
  dsimp only
  rw [if_neg (by simp [hinc0] : ¬(recoverAcc hash st flx).incomplete_log_idx ≠ 0)]
  rw [if_neg (fun hc => hfull hc.2)]
  dsimp only [rotate]
  refine ⟨rfl, ?_, ?_, rfl⟩
  · exact mem_insertA_self _ _ _
  · simp [fsGet_fsWrite]


theorem claim_C4_witness :
    (recoverAcc testHash recFixture 1).incomplete_log_idx ≠ 0 ∧
      (readChangelogAndInitWriter testHash recFixture 1).current_writer
        = some ⟨segA.path, 2, 1⟩ ∧
      fsGet (readChangelogAndInitWriter testHash recFixture 1).fs segB.path = none := by
  refine ⟨by decide, ?_, ?_⟩
  · obtain ⟨d, hmem, _, _, _, _, hw, _, _⟩ := claim_C4_recover_short_segment testHash
      recFixture 1 (by decide) (by decide) (by decide) (by decide)
    have h1 : (recoverAcc testHash recFixture 1).incomplete_log_idx = 1 := by decide
    have h2 : (recoverAcc testHash recFixture 1).res.entries_read = 2 := by decide
    rw [h1] at hmem
    have hd : d = segA := by
      rcases List.mem_cons.mp hmem with he | he
      · have := (Prod.mk.injEq .. ▸ he :)
        exact ((Prod.mk.injEq 1 d 1 segA).mp he).2
      · rcases List.mem_cons.mp he with he2 | he2
        · exact absurd ((Prod.mk.injEq 1 d 4 segB).mp he2).1 (by decide)
        · cases he2
    rw [hw, h2, hd]
    decide
  · obtain ⟨d, _, _, _, _, hdel, _, _, _⟩ := claim_C4_recover_short_segment testHash
      recFixture 1 (by decide) (by decide) (by decide) (by decide)
    exact hdel (4, segB) (by decide) (by decide)

theorem claim_C8_witness :
    (¬((recoverAcc testHash (initialChangelog "d" 3) 0).res.entries_read
        < (recoverAcc testHash (initialChangelog "d" 3) 0).entries_in_last)) ∧
      (readChangelogAndInitWriter testHash (initialChangelog "d" 3) 0).current_writer
        = some ⟨⟨"d", "changelog", 1, 3⟩, 0, 1⟩ := by
  refine ⟨by decide, ?_⟩
  exact (claim_C8_recover_rotates_fresh testHash (initialChangelog "d" 3) 0 (by decide)).1

/-- C3: with `rotate_interval = R`, after `append(1..n)` with `n > R`,
`write_at(m, e')` for `m ≤ R` drops every segment after the first from the map,
deletes their files, truncates the first segment's file to `offsets[m]`, and
leaves exactly entries `1..m` with `entries[m] = e'`. -/
theorem claim_C3_overwrite_across_segments (hash : Hash) (dir : String) (R n m : Nat)
    (es : Nat → LogEntry) (e' : LogEntry) (sync : Bool)
    (hR : 1 ≤ R) (hRn : R < n) (hnM : n < M64) (hm1 : 1 ≤ m) (hmR : m ≤ R) :
    ∃ stN stF,
      appendSeq hash es sync n (initState hash dir R) = .ok stN ∧
      writeAt hash stN m e' sync = .ok stF ∧
      stF.existing_changelogs = [(1, segDescAt dir R 0)] ∧
      (∀ k, 1 ≤ k → k ≤ (n - 1) / R → fsGet stF.fs (segPathAt dir R k) = none) ∧
      (∃ orig offVal, fsGet stN.fs (segPathAt dir R 0) = some orig ∧
        lookupA stN.index_to_start_pos m = some offVal ∧
        fsGet stF.fs (segPathAt dir R 0)
          = some (orig.take offVal ++ serializeRecord (buildRecord hash m e'))) ∧
      keysOf stF.logs = (List.range m).map (fun i => i + 1) ∧
      lookupA stF.logs m = some e' := by
  obtain ⟨stN, hok, hlogs, hoffs, hsegs, hw, hfs, hri, hdir⟩ :=
    appendSeq_full_spec hash dir R es sync hR (by omega) n (by omega)
  have hq1 : 1 ≤ (n - 1) / R := by
    rw [Nat.le_div_iff_mul_le (by omega : 0 < R)]
    omega
  have hqR : 1 * R ≤ (n - 1) / R * R := Nat.mul_le_mul_right R hq1
  obtain ⟨hlb, hub⟩ := div_sandwich n R hR (by omega)
  have hoffm : (lookupA stN.index_to_start_pos m).isSome = true := by
    rw [lookupA_isSome_iff_mem, hoffs]
    simp only [List.mem_map, List.mem_range]
    exact ⟨m - 1, by omega, by omega⟩
  obtain ⟨offVal, hoffVal⟩ := Option.isSome_iff_exists.mp hoffm
  obtain ⟨orig, horig⟩ := Option.isSome_iff_exists.mp (hfs 0 (Nat.zero_le _))
  obtain ⟨ik, hroll⟩ := rollback_eval stN dir R n m hR hm1 hmR hq1 hsegs
  have hnrb : m < (n - 1) / R * R + 1 := by omega
  have hfilge : (expectedLogs es n).filter (fun p => decide (m ≤ p.1))
      = (List.range (n + 1 - m)).map (fun i => (m + i, makeClone (es (m + i)))) := by
    unfold expectedLogs
    exact rangeMap_filter_ge (fun i => makeClone (es i)) n m hm1 (by omega)
  have hfillt : (expectedLogs es n).filter (fun p => decide (p.1 < m))
      = (List.range (m - 1)).map (fun i => (i + 1, makeClone (es (i + 1)))) := by
    unfold expectedLogs
    exact rangeMap_filter_lt (fun i => makeClone (es i)) n m hm1 (by omega)
  have hdropped : ((List.range (n + 1 - m)).map
        (fun i => (m + i, makeClone (es (m + i))))).map (fun p => p.1)
      = (List.range (n + 1 - m)).map (fun i => m + i) := by
    rw [List.map_map]
    rfl
  have hwa : writeAt hash stN m e' sync
      = appendEntry hash
          { stN with
            existing_changelogs := [(1, segDescAt dir R 0)],
            logs := (List.range (m - 1)).map (fun i => (i + 1, makeClone (es (i + 1)))),
            index_to_start_pos :=
              ((List.range (n + 1 - m)).map (fun i => m + i)).foldl
                (fun mm k => eraseA mm k) stN.index_to_start_pos,
            current_writer := some ⟨segPathAt dir R 0,
              ((List.range (n + 1 - m)).map (fun i => m + i)).foldl
                (fun x _ => decWrap x) R, ik⟩,
            fs := ((List.range ((n - 1) / R)).map
                (fun k => ((k + 1) * R + 1, segDescAt dir R (k + 1)))).foldl
              (fun f p => fsErase f p.2.path)
              (fsWrite (fsWrite stN.fs (segPathAt dir R 0) orig) (segPathAt dir R 0)
                (orig.take offVal)) }
          m e' sync := by
    unfold writeAt
    rw [hoffVal]
    simp only [Option.isNone_some, Bool.false_eq_true, if_false, ite_false]
    rw [hw]
    dsimp only
    simp only [if_pos hnrb]
    rw [hroll]
    dsimp only
    rw [hoffVal]
    simp only [Option.getD_some]
    unfold truncateWriterFile removeSegsAbove
    dsimp only
    rw [horig]
    simp only [Option.getD_some]
    rw [fsGet_fsWrite, if_pos rfl]
    simp only [Option.getD_some]
    rw [hsegs, expectedSegs_filter_le dir R ((n - 1) / R) m hm1 hmR,
      expectedSegs_filter_gt dir R ((n - 1) / R) m hm1 hmR]
    rw [hlogs, hfilge, hfillt, hdropped]
  have hEW : ((List.range (n + 1 - m)).map (fun i => m + i)).foldl
        (fun x _ => decWrap x) R = (R + (M64 - 1) * (n + 1 - m)) % M64 := by
    rw [decWrap_foldl _ R (by omega), List.length_map, List.length_range]
  have hnr4 : ¬ ((List.range (n + 1 - m)).map (fun i => m + i)).foldl
        (fun x _ => decWrap x) R = R := by
    rw [hEW]
    exact wrap_ne R (n + 1 - m) (by omega) (by omega) (by omega)
  have hmemD : m ∈ (List.range (n + 1 - m)).map (fun i => m + i) := by
    simp only [List.mem_map, List.mem_range]
    exact ⟨0, by omega, by omega⟩
  have hnone4 : lookupA (((List.range (n + 1 - m)).map (fun i => m + i)).foldl
        (fun mm k => eraseA mm k) stN.index_to_start_pos) m = none := by
    rw [lookupA_foldl_eraseA, if_pos hmemD]
  obtain ⟨stF, happ, hFlogs, hFoffs, hFsegs, hFw, hFfs, hFri, hFdir⟩ :=
    appendEntry_no_rotate_spec hash
      { stN with
        existing_changelogs := [(1, segDescAt dir R 0)],
        logs := (List.range (m - 1)).map (fun i => (i + 1, makeClone (es (i + 1)))),
        index_to_start_pos :=
          ((List.range (n + 1 - m)).map (fun i => m + i)).foldl
            (fun mm k => eraseA mm k) stN.index_to_start_pos,
        current_writer := some ⟨segPathAt dir R 0,
          ((List.range (n + 1 - m)).map (fun i => m + i)).foldl
            (fun x _ => decWrap x) R, ik⟩,
        fs := ((List.range ((n - 1) / R)).map
            (fun k => ((k + 1) * R + 1, segDescAt dir R (k + 1)))).foldl
          (fun f p => fsErase f p.2.path)
          (fsWrite (fsWrite stN.fs (segPathAt dir R 0) orig) (segPathAt dir R 0)
            (orig.take offVal)) }
      m e' sync
      ⟨segPathAt dir R 0,
        ((List.range (n + 1 - m)).map (fun i => m + i)).foldl
          (fun x _ => decWrap x) R, ik⟩
      rfl (by dsimp only; rw [hri]; exact hnr4) hnone4
  have hP0notin : ¬ segPathAt dir R 0 ∈ ((List.range ((n - 1) / R)).map
      (fun k => ((k + 1) * R + 1, segDescAt dir R (k + 1)))).map (fun p => p.2.path) := by
    simp only [List.map_map, List.mem_map, List.mem_range]
    rintro ⟨i, hi, he⟩
    exact segPathAt_ne_zero dir R (i + 1) hR (by omega) he
  have hfs4 : fsGet (((List.range ((n - 1) / R)).map
        (fun k => ((k + 1) * R + 1, segDescAt dir R (k + 1)))).foldl
      (fun f p => fsErase f p.2.path)
      (fsWrite (fsWrite stN.fs (segPathAt dir R 0) orig) (segPathAt dir R 0)
        (orig.take offVal))) (segPathAt dir R 0) = some (orig.take offVal) := by
    rw [fsGet_foldl_fsErase, if_neg hP0notin, fsGet_fsWrite, if_pos rfl]
  refine ⟨stN, stF, hok, hwa.trans happ, ?_, ?_, ?_, ?_, ?_⟩
  · rw [hFsegs]
  · intro k hk1 hkq
    have hmemTail : segPathAt dir R k ∈ ((List.range ((n - 1) / R)).map
        (fun j => ((j + 1) * R + 1, segDescAt dir R (j + 1)))).map (fun p => p.2.path) := by
      simp only [List.map_map, List.mem_map, List.mem_range]
      refine ⟨k - 1, by omega, ?_⟩
      show (segDescAt dir R (k - 1 + 1)).path = segPathAt dir R k
      rw [show k - 1 + 1 = k by omega]
      rfl
    rw [hFfs]
    dsimp only
    rw [fsGet_fsWrite, if_neg (segPathAt_ne_zero dir R k hR hk1),
      fsGet_foldl_fsErase, if_pos hmemTail]
  · refine ⟨orig, offVal, horig, hoffVal, ?_⟩
    rw [hFfs]
    dsimp only
    rw [fsGet_fsWrite, if_pos rfl, hfs4]
    simp only [Option.getD_some]
  · have hkeysmall : ∀ p ∈ (List.range (m - 1)).map
        (fun i => (i + 1, makeClone (es (i + 1)))), p.1 < m := by
      intro p hp
      simp only [List.mem_map, List.mem_range] at hp
      obtain ⟨i, hi, he⟩ := hp
      have hp1 : p.1 = i + 1 := by rw [← he]
      omega
    rw [hFlogs]
    dsimp only
    rw [insertA_of_forall_lt _ _ _ hkeysmall]
    unfold keysOf
    rw [List.map_append, List.map_map]
    obtain ⟨m', rfl⟩ : ∃ m', m = m' + 1 := ⟨m - 1, by omega⟩
    rw [Nat.add_sub_cancel, List.range_succ, List.map_append]
    rfl
  · rw [hFlogs]
    dsimp only
    rw [lookupA_insertA, if_pos rfl]
    rfl

/-- Witness for C3 at `rotate_interval = 3`, `n = 7`, `m = 2`. -/
theorem claim_C3_witness :
    ∃ stN stF,
      appendSeq testHash testEntry true 7 (initState testHash "d" 3) = .ok stN ∧
      writeAt testHash stN 2 (testEntry 99) true = .ok stF ∧
      stF.existing_changelogs = [(1, segDescAt "d" 3 0)] ∧
      (∀ k, 1 ≤ k → k ≤ (7 - 1) / 3 → fsGet stF.fs (segPathAt "d" 3 k) = none) ∧
      (∃ orig offVal, fsGet stN.fs (segPathAt "d" 3 0) = some orig ∧
        lookupA stN.index_to_start_pos 2 = some offVal ∧
        fsGet stF.fs (segPathAt "d" 3 0)
          = some (orig.take offVal ++ serializeRecord (buildRecord testHash 2 (testEntry 99)))) ∧
      keysOf stF.logs = (List.range 2).map (fun i => i + 1) ∧
      lookupA stF.logs 2 = some (testEntry 99) :=
  claim_C3_overwrite_across_segments testHash "d" 3 7 2 testEntry (testEntry 99) true
    (by decide) (by decide) (by decide) (by decide) (by decide)

end ChangelogProof
